import Mathlib

/-!
Verification of the tag-tree core of the Tag-Folder-Explorer plugin.

The development shallowly embeds the tree engine (`TagNode`, `TreeRoot`,
`FileLeaf`), the metadata sidecar codec (filename convention and the
constrained front-matter parser/serializer), and the tree computation
pipeline.  Strings are modelled as `List Char` (`Str`); the metadata
directory is modelled as an association list from sidecar filenames to file
data; `btoa`/`atob` are modelled on byte lists, with `Option` capturing the
`InvalidCharacterError` thrown on non-Latin-1 input.
-/

set_option maxRecDepth 10000

abbrev Str := List Char

/-- JavaScript whitespace class (ASCII part plus NBSP), as used by
`String.prototype.trim` and the `\s` regex class in the source. -/
def isJsSpace (c : Char) : Bool :=
  c = ' ' || c = '\t' || c = '\n' || c = '\r' || c = '\x0b' || c = '\x0c' || c = ' '

/-- JavaScript `String.prototype.trim`. -/
def jsTrim (s : Str) : Str :=
  ((s.dropWhile isJsSpace).reverse.dropWhile isJsSpace).reverse

/-- JavaScript `String.prototype.split(sep)` for a one-character separator. -/
def splitOnChar (sep : Char) : Str → List Str
  | [] => [[]]
  | c :: rest =>
    match splitOnChar sep rest with
    | [] => [[]]
    | h :: t => if c = sep then [] :: h :: t else (c :: h) :: t

/-- `tagpath.split('/').filter(segment => segment.length > 0)`, the segment
splitting used throughout `TreeRoot`. -/
def splitSegs (p : Str) : List Str :=
  (splitOnChar '/' p).filter (fun s => s ≠ [])

/-- Boolean substring test, matching JavaScript `String.prototype.includes`. -/
def jsIncludes (hay : Str) (needle : Str) : Bool :=
  match hay with
  | [] => needle.isEmpty
  | _ :: rest => needle.isPrefixOf hay || jsIncludes rest needle

-- ==================== base64 (btoa / atob) ====================

/-- The standard base64 alphabet used by `btoa`. -/
def b64Alphabet : Str :=
  "ABCDEFGHIJKLMNOPQRSTUVWXYZabcdefghijklmnopqrstuvwxyz0123456789+/".data

/-- Character for a six-bit group. -/
def sextetChar (n : Nat) : Char := b64Alphabet.getD n '?'

/-- Index of a base64 character in the alphabet. -/
def charSextet (c : Char) : Option Nat := b64Alphabet.findIdx? (fun x => x = c)

/-- `btoa` on a list of bytes: three input bytes become four alphabet
characters, with `=` padding for a trailing group of one or two bytes. -/
def btoaBytes : List Nat → Str
  | [] => []
  | [a] => [sextetChar (a / 4), sextetChar (a % 4 * 16), '=', '=']
  | [a, b] => [sextetChar (a / 4), sextetChar (a % 4 * 16 + b / 16), sextetChar (b % 16 * 4), '=']
  | a :: b :: c :: rest =>
    sextetChar (a / 4) :: sextetChar (a % 4 * 16 + b / 16) ::
      sextetChar (b % 16 * 4 + c / 64) :: sextetChar (c % 64) :: btoaBytes rest

/-- `atob`: decodes groups of four base64 characters back to bytes; `none`
models the exception thrown on malformed input. -/
def atobChars : Str → Option (List Nat)
  | [] => some []
  | c0 :: c1 :: c2 :: c3 :: rest =>
    match charSextet c0, charSextet c1 with
    | some s0, some s1 =>
      if c2 = '=' then
        if c3 = '=' ∧ rest = [] then some [s0 * 4 + s1 / 16] else none
      else
        match charSextet c2 with
        | some s2 =>
          if c3 = '=' then
            if rest = [] then some [s0 * 4 + s1 / 16, s1 % 16 * 16 + s2 / 4] else none
          else
            match charSextet c3 with
            | some s3 =>
              match atobChars rest with
              | some bs =>
                some ((s0 * 4 + s1 / 16) :: (s1 % 16 * 16 + s2 / 4) :: (s2 % 4 * 64 + s3) :: bs)
              | none => none
            | none => none
        | none => none
    | _, _ => none
  | _ => none

theorem charSextet_sextetChar_all : ∀ n, n < 64 → charSextet (sextetChar n) = some n := by
  decide

theorem sextetChar_ne_eqsign : ∀ n, n < 64 → sextetChar n ≠ '=' := by
  decide

theorem sextetChar_ne_underscore (n : Nat) : sextetChar n ≠ '_' := by
  by_cases h : n < 64
  · revert h; revert n; decide
  · have : sextetChar n = '?' := by
      unfold sextetChar
      apply List.getD_eq_default
      simpa [b64Alphabet] using Nat.le_of_not_lt h
    simp [this]

theorem btoaBytes_ne_underscore : ∀ (bs : List Nat), '_' ∉ btoaBytes bs := by
  intro bs
  induction bs using btoaBytes.induct with
  | case1 => simp [btoaBytes]
  | case2 a =>
    simp only [btoaBytes, List.mem_cons, List.not_mem_nil, or_false]
    push_neg
    refine ⟨?_, ?_, by decide, by decide⟩ <;>
      exact fun h => sextetChar_ne_underscore _ h.symm
  | case3 a b =>
    simp only [btoaBytes, List.mem_cons, List.not_mem_nil, or_false]
    push_neg
    refine ⟨?_, ?_, ?_, by decide⟩ <;>
      exact fun h => sextetChar_ne_underscore _ h.symm
  | case4 a b c rest ih =>
    simp only [btoaBytes, List.mem_cons]
    push_neg
    refine ⟨?_, ?_, ?_, ?_, ih⟩ <;>
      exact fun h => sextetChar_ne_underscore _ h.symm

/-- Decoding inverts encoding on byte lists (all bytes below 256). -/
theorem atobChars_btoaBytes : ∀ (k : Nat) (bs : List Nat), bs.length ≤ k →
    (∀ b ∈ bs, b < 256) → atobChars (btoaBytes bs) = some bs := by
  intro k
  induction k with
  | zero =>
    intro bs hl _
    have : bs = [] := List.length_eq_zero.mp (Nat.le_zero.mp hl)
    subst this; rfl
  | succ k ih =>
    intro bs hl hb
    match bs with
    | [] => rfl
    | [a] =>
      have ha : a < 256 := hb a (by simp)
      have h0 : a / 4 < 64 := by omega
      have h1 : a % 4 * 16 < 64 := by omega
      simp only [btoaBytes, atobChars, charSextet_sextetChar_all _ h0,
        charSextet_sextetChar_all _ h1, if_true, and_self,
        Option.some.injEq, List.cons.injEq, and_true]
      omega
    | [a, b] =>
      have ha : a < 256 := hb a (by simp)
      have hbb : b < 256 := hb b (by simp)
      have h0 : a / 4 < 64 := by omega
      have h1 : a % 4 * 16 + b / 16 < 64 := by omega
      have h2 : b % 16 * 4 < 64 := by omega
      simp only [btoaBytes, atobChars, charSextet_sextetChar_all _ h0,
        charSextet_sextetChar_all _ h1, charSextet_sextetChar_all _ h2]
      rw [if_neg (sextetChar_ne_eqsign _ h2)]
      simp only [if_true, Option.some.injEq, List.cons.injEq, and_true]
      omega
    | a :: b :: c :: rest =>
      have ha : a < 256 := hb a (by simp)
      have hbb : b < 256 := hb b (by simp)
      have hc : c < 256 := hb c (by simp)
      have h0 : a / 4 < 64 := by omega
      have h1 : a % 4 * 16 + b / 16 < 64 := by omega
      have h2 : b % 16 * 4 + c / 64 < 64 := by omega
      have h3 : c % 64 < 64 := by omega
      have hrest : atobChars (btoaBytes rest) = some rest := by
        apply ih rest
        · have := hl; simp only [List.length_cons] at this ⊢; omega
        · intro x hx; exact hb x (by simp [hx])
      simp only [btoaBytes, atobChars, charSextet_sextetChar_all _ h0,
        charSextet_sextetChar_all _ h1, charSextet_sextetChar_all _ h2,
        charSextet_sextetChar_all _ h3, hrest]
      rw [if_neg (sextetChar_ne_eqsign _ h2), if_neg (sextetChar_ne_eqsign _ h3)]
      simp only [Option.some.injEq, List.cons.injEq, and_true]
      omega

-- ==================== sidecar filename convention ====================

/-- `this.path.replace(/\//g, '_')` — the human-readable half of the sidecar
filename. -/
def underscorify (p : Str) : Str := p.map (fun c => if c = '/' then '_' else c)

/-- `btoa` on a JavaScript string: defined only when every UTF-16 code unit is
below 256; `none` models the `InvalidCharacterError` it throws otherwise. -/
def btoaStr (p : Str) : Option Str :=
  if p.all (fun c => c.toNat < 256) then some (btoaBytes (p.map Char.toNat)) else none

/-- `atob` on a string, producing a Latin-1 string. -/
def atobStr (s : Str) : Option Str := (atobChars s).map (fun bs => bs.map Char.ofNat)

/-- `TagNode.getMetadataFilePath`, reduced to the sidecar filename:
`{path with / replaced by _}_{base64(path)}.md`.  The constant
`{vaultPath}/.TagNodeMeta/` directory prefix added by `path.join` is elided
(every operation uses the same prefix); `none` models the exception `btoa`
throws on a non-Latin-1 path, which the calling metadata operations catch. -/
def getMetadataFilePath (path : Str) : Option Str :=
  (btoaStr path).map (fun b64 => underscorify path ++ '_' :: (b64 ++ ".md".data))

/-- Whether a name ends in `.md` (the `/\.md$/` test). -/
def endsWithMd (s : Str) : Bool :=
  match s.reverse with
  | 'd' :: 'm' :: '.' :: _ => true
  | _ => false

/-- `filename.replace(/\.md$/, '')`. -/
def stripMdSuffix (s : Str) : Str :=
  if endsWithMd s then s.take (s.length - 3) else s

/-- The substring after the last `'_'` (`lastIndexOf` plus `substring`);
`none` when the name contains no underscore. -/
def afterLastUnderscore (s : Str) : Option Str :=
  if '_' ∈ s then some (s.reverse.takeWhile (fun c => c ≠ '_')).reverse else none

/-- `TreeRoot.extractTagPathFromFilename`: strips the `.md` extension, takes
the substring after the last underscore and base64-decodes it; returns the
empty string on a missing underscore, an empty base64 segment, or an `atob`
error (the catch branch). -/
def extractTagPathFromFilename (filename : Str) : Str :=
  match afterLastUnderscore (stripMdSuffix filename) with
  | none => []
  | some b64Part =>
    if b64Part = [] then []
    else
      match atobStr b64Part with
      | some decoded => decoded
      | none => []

theorem takeWhile_append_all {p : Char → Bool} (l₁ l₂ : Str) (h : ∀ x ∈ l₁, p x) :
    (l₁ ++ l₂).takeWhile p = l₁ ++ l₂.takeWhile p := by
  induction l₁ with
  | nil => rfl
  | cons a t ih =>
    simp only [List.cons_append, List.takeWhile_cons, h a (by simp), if_true]
    rw [ih (fun x hx => h x (by simp [hx]))]

theorem stripMdSuffix_append (xs : Str) : stripMdSuffix (xs ++ ".md".data) = xs := by
  unfold stripMdSuffix
  rw [if_pos]
  · have hlen : (xs ++ ".md".data).length - 3 = xs.length := by
      simp [List.length_append]
    rw [hlen, List.take_left']
    rfl
  · unfold endsWithMd
    rw [List.reverse_append]
    rfl

theorem afterLastUnderscore_append (u b : Str) (hb : '_' ∉ b) :
    afterLastUnderscore (u ++ '_' :: b) = some b := by
  unfold afterLastUnderscore
  rw [if_pos (by simp)]
  congr 1
  rw [List.reverse_append]
  simp only [List.reverse_cons]
  rw [List.append_assoc,
    takeWhile_append_all b.reverse _ (fun x hx => by
      simp only [decide_eq_true_eq, ne_eq]
      intro hEq; exact hb (hEq ▸ List.mem_reverse.mp hx))]
  simp

/-- A valid label path in the sense of the spec: non-empty, printable
non-control characters (hence Latin-1, hence base64-encodable). -/
def validLabelPath (p : Str) : Prop :=
  p ≠ [] ∧ ∀ c ∈ p, 32 ≤ c.toNat ∧ c.toNat ≤ 126

instance (p : Str) : Decidable (validLabelPath p) := by
  unfold validLabelPath; infer_instance

theorem btoaBytes_ne_nil (bs : List Nat) (h : bs ≠ []) : btoaBytes bs ≠ [] := by
  match bs with
  | [] => exact absurd rfl h
  | [a] => simp [btoaBytes]
  | [a, b] => simp [btoaBytes]
  | a :: b :: c :: rest => simp [btoaBytes]

/-- The sidecar filename convention is reversible on valid label paths. -/
theorem metaFilename_roundtrip (p : Str) (h : validLabelPath p) :
    ∃ f, getMetadataFilePath p = some f ∧ extractTagPathFromFilename f = p := by
  obtain ⟨hne, hrange⟩ := h
  have hall : p.all (fun c => c.toNat < 256) = true := by
    rw [List.all_eq_true]
    intro c hc
    simp only [decide_eq_true_eq]
    exact Nat.lt_of_le_of_lt (hrange c hc).2 (by omega)
  have hbytes : ∀ b ∈ p.map Char.toNat, b < 256 := by
    intro b hb
    obtain ⟨c, hc, rfl⟩ := List.mem_map.mp hb
    exact Nat.lt_of_le_of_lt (hrange c hc).2 (by omega)
  refine ⟨underscorify p ++ '_' :: (btoaBytes (p.map Char.toNat) ++ ".md".data), ?_, ?_⟩
  · unfold getMetadataFilePath btoaStr
    rw [if_pos hall]
    rfl
  · unfold extractTagPathFromFilename
    have hsplit : underscorify p ++ '_' :: (btoaBytes (p.map Char.toNat) ++ ".md".data)
        = (underscorify p ++ '_' :: btoaBytes (p.map Char.toNat)) ++ ".md".data := by
      simp
    rw [hsplit, stripMdSuffix_append,
      afterLastUnderscore_append _ _ (btoaBytes_ne_underscore _)]
    simp only []
    rw [if_neg (btoaBytes_ne_nil _ (by simpa using hne))]
    unfold atobStr
    rw [atobChars_btoaBytes (p.map Char.toNat).length _ le_rfl hbytes]
    simp only [Option.map_some', List.map_map]
    rw [show (Char.ofNat ∘ Char.toNat) = id from funext fun c => Char.ofNat_toNat c,
      List.map_id]

/-- **C1.** Sidecar filename round-trip: for every valid label path `P`,
decoding the sidecar filename produced by `getMetadataFilePath`'s convention
(via `extractTagPathFromFilename`) reproduces exactly `P`. -/
theorem C1_sidecar_filename_roundtrip (p : Str) (h : validLabelPath p) :
    ∃ f, getMetadataFilePath p = some f ∧ extractTagPathFromFilename f = p :=
  metaFilename_roundtrip p h

/-- Witness: the round-trip theorem applied to the path `subject/math`. -/
theorem C1_sidecar_filename_roundtrip_witness :
    validLabelPath "subject/math".data ∧
      (∃ f, getMetadataFilePath "subject/math".data = some f ∧
        extractTagPathFromFilename f = "subject/math".data) :=
  ⟨by decide, C1_sidecar_filename_roundtrip "subject/math".data (by decide)⟩

-- ==================== front-matter records ====================

/-- A parsed front-matter value: scalar text or a list of items (the only two
shapes the source's parser produces and its merge logic handles). -/
inductive Val where
  | s (v : Str)
  | l (items : List Str)
deriving DecidableEq

/-- A parsed front-matter record, as an insertion-ordered association list —
the JavaScript object semantics for non-numeric keys. -/
abbrev Record := List (Str × Val)

/-- JavaScript `result[key] = v`: overwrite in place, else append. -/
def recordSet (r : Record) (k : Str) (v : Val) : Record :=
  match r with
  | [] => [(k, v)]
  | (k0, v0) :: rest => if k0 = k then (k0, v) :: rest else (k0, v0) :: recordSet rest k v

/-- JavaScript `obj[key]` (with `undefined` as `none`). -/
def recordGet (r : Record) (k : Str) : Option Val :=
  match r with
  | [] => none
  | (k0, v0) :: rest => if k0 = k then some v0 else recordGet rest k

/-- The regex `\w` class. -/
def isWordChar (c : Char) : Bool :=
  ('a' ≤ c && c ≤ 'z') || ('A' ≤ c && c ≤ 'Z') || ('0' ≤ c && c ≤ '9') || c = '_'

/-- The `[\w-]` class used in key patterns. -/
def isKeyChar (c : Char) : Bool := isWordChar c || c = '-'

/-- The apostrophe character (single quote). -/
def apos : Char := Char.ofNat 39

/-- Matches the common `^(\w[\w-]*):` prefix of the three line patterns,
returning the key and the remainder after the colon. -/
def lineKeyRest (line : Str) : Option (Str × Str) :=
  match line with
  | [] => none
  | c :: rest =>
    if isWordChar c then
      match rest.dropWhile isKeyChar with
      | ':' :: r => some (c :: rest.takeWhile isKeyChar, r)
      | _ => none
    else none

/-- `/^\s*$/` — an empty (all-whitespace) line. -/
def isAllWs (l : Str) : Bool := l.all isJsSpace

/-- `/^\s*-\s+/` — a block-list item line. -/
def isItemLine (l : Str) : Bool :=
  match l.dropWhile isJsSpace with
  | '-' :: c :: _ => isJsSpace c
  | _ => false

/-- `item.replace(/^"|"$/g, '')` — strips one leading and one trailing
double quote. -/
def stripQuotesJs (s : Str) : Str :=
  match s with
  | '"' :: t => if t.getLast? = some '"' then t.dropLast else t
  | _ => if s.getLast? = some '"' then s.dropLast else s

/-- Value of a block-list item line: the matched `^\s*-\s+` prefix removed,
trimmed, quotes stripped. -/
def itemVal (l : Str) : Str :=
  stripQuotesJs (jsTrim (((l.dropWhile isJsSpace).drop 1).dropWhile isJsSpace))

/-- `:\s*\|[-]?\s*$` — remainder of a block-scalar header after the colon. -/
def isBlockHeader (r : Str) : Bool :=
  match r.dropWhile isJsSpace with
  | '|' :: t =>
    match t with
    | '-' :: t2 => isAllWs t2
    | _ => isAllWs t
  | _ => false

/-- `/^(\s+).*/` — a block-scalar continuation line. -/
def startsWsLine (l : Str) : Bool :=
  match l with
  | c :: _ => isJsSpace c
  | [] => false

/-- `line.replace(/^\s{1,}/, '')`. -/
def stripLeadWs (l : Str) : Str := l.dropWhile isJsSpace

/-- Value captured by the scalar pattern
`:\s*(?:"([^"]*)"|'([^']*)'|([^#].*))?$` applied to the remainder `r` after
the colon (with the regex backtracking behaviour of the greedy `\s*`);
`none` means the scalar pattern fails and the line is skipped. -/
def scalarVal (r : Str) : Option Str :=
  match r.dropWhile isJsSpace with
  | [] => some []
  | '"' :: t =>
    if t.getLast? = some '"' ∧ '"' ∉ t.dropLast then some t.dropLast
    else some (jsTrim (r.dropWhile isJsSpace))
  | c :: t =>
    if c = apos then
      if t.getLast? = some apos ∧ apos ∉ t.dropLast then some t.dropLast
      else some (jsTrim (r.dropWhile isJsSpace))
    else if c = '#' then
      if r.takeWhile isJsSpace = [] then none else some (jsTrim (r.dropWhile isJsSpace))
    else some (jsTrim (r.dropWhile isJsSpace))

/-- The frontmatter parsing loop of `readMeta`/`updateMeta` (one fuel unit
per loop iteration; callers pass enough fuel for all iterations). -/
def parseFMLoop (fuel : Nat) (lines : List Str) (acc : Record) : Record :=
  match fuel, lines with
  | 0, _ => acc
  | _ + 1, [] => acc
  | fuel + 1, line :: rest =>
    if isAllWs line then parseFMLoop fuel rest acc
    else
      match lineKeyRest line with
      | none => parseFMLoop fuel rest acc
      | some (k, r) =>
        if isAllWs r then
          parseFMLoop fuel (rest.dropWhile isItemLine)
            (recordSet acc k (.l ((rest.takeWhile isItemLine).map itemVal)))
        else if isBlockHeader r then
          parseFMLoop fuel (rest.dropWhile startsWsLine)
            (recordSet acc k
              (.s (List.intercalate ['\n'] ((rest.takeWhile startsWsLine).map stripLeadWs))))
        else
          match scalarVal r with
          | some v => parseFMLoop fuel rest (recordSet acc k (.s v))
          | none => parseFMLoop fuel rest acc

/-- `parseFrontmatter` from the source (shared by `readMeta`/`updateMeta`). -/
def parseFrontmatter (lines : List Str) : Record :=
  parseFMLoop (lines.length + 1) lines []

/-- `v.replace(/"/g, '\\"')`. -/
def escapeQuotes : Str → Str
  | [] => []
  | c :: t => if c = '"' then '\\' :: '"' :: escapeQuotes t else c :: escapeQuotes t

/-- Lines emitted by `serializeFrontmatter` for one entry.  The
number/boolean/null branches of the source cannot arise for parsed values
and are omitted from the value type. -/
def entryLines (e : Str × Val) : List Str :=
  match e.2 with
  | .l items => (e.1 ++ ":".data) :: items.map (fun s => "  - ".data ++ s)
  | .s v =>
    if '\n' ∈ v then
      (e.1 ++ ": |-".data) :: (splitOnChar '\n' v).map (fun l => "  ".data ++ l)
    else
      [e.1 ++ ": \"".data ++ escapeQuotes v ++ "\"".data]

/-- `serializeFrontmatter` from `updateMeta`. -/
def serializeFrontmatter (r : Record) : List Str :=
  (r.map entryLines).flatten

/-- `Array.from(new Set(xs))`: dedup keeping first occurrences. -/
def jsDedup (seen : List Str) : List Str → List Str
  | [] => []
  | x :: xs => if x ∈ seen then jsDedup seen xs else x :: jsDedup (x :: seen) xs

/-- The per-key merge rule of `updateMeta`. -/
def mergeVal (existing : Option Val) (incoming : Val) : Val :=
  match existing with
  | none => incoming
  | some (.l ex) =>
    .l (jsDedup [] (ex ++ (match incoming with | .l xs => xs | .s v => [v])))
  | some (.s e) =>
    match incoming with
    | .l xs => .l (jsDedup [] (e :: xs))
    | .s v =>
      if v = [] then .s e
      else if jsIncludes e v then .s e
      else .s (e ++ '\n' :: v)

/-- The payload-merging loop of `updateMeta`. -/
def mergeRecord (existing : Record) (payload : Record) : Record :=
  payload.foldl (fun acc kv => recordSet acc kv.1 (mergeVal (recordGet acc kv.1) kv.2)) existing

-- ==================== metadata sidecar operations ====================

/-- Contents of one file of the `.TagNodeMeta` directory: readable content,
or a file whose read throws (modelling filesystem errors). -/
inductive FData where
  | ok (content : Str)
  | err
deriving DecidableEq

/-- The `.TagNodeMeta` directory: an insertion-ordered map from sidecar
filename to file data. -/
abbrev Fs := List (Str × FData)

def fsLookup (fs : Fs) (name : Str) : Option FData :=
  match fs with
  | [] => none
  | (n, d) :: rest => if n = name then some d else fsLookup rest name

/-- `fs.existsSync`. -/
def fsHas (fs : Fs) (name : Str) : Bool := (fsLookup fs name).isSome

/-- `fs.writeFileSync`: overwrite in place, else create. -/
def fsWrite (fs : Fs) (name : Str) (d : FData) : Fs :=
  match fs with
  | [] => [(name, d)]
  | (n, d0) :: rest => if n = name then (n, d) :: rest else (n, d0) :: fsWrite rest name d

/-- `fs.unlinkSync`. -/
def fsErase (fs : Fs) (name : Str) : Fs :=
  match fs with
  | [] => []
  | (n, d0) :: rest => if n = name then rest else (n, d0) :: fsErase rest name

/-- The lines of the initial sidecar content written by
`TagNode.createNewMeta`; `now` stands for `new Date().toISOString()` (the
two timestamp expressions are modelled by the one parameter). -/
def initialMetaLines (name path now : Str) : List Str :=
  [ "---".data,
    "path: \"".data ++ path ++ "\"".data,
    "name: \"".data ++ name ++ "\"".data,
    "created: \"".data ++ now ++ "\"".data,
    "modified: \"".data ++ now ++ "\"".data,
    "description: |-".data,
    "  TagNode Metadata for ".data ++ name,
    "  This file contains metadata for the TagNode at path: `".data ++ path ++ "`".data,
    "legend: |-".data,
    "  - 🔴, label one".data,
    "  - 🟠, label two".data,
    "  - 🟡, label three".data,
    "  - 🟢, label four".data,
    "  - 🔵, label five".data,
    "  - 🟣, label six".data,
    "---".data,
    [],
    [] ]

def initialMetaContent (name path now : Str) : Str :=
  List.intercalate ['\n'] (initialMetaLines name path now)

/-- `TagNode.createNewMeta`: writes the initial sidecar iff none exists;
`false` on an existing file or on the exception `btoa` throws for a
non-Latin-1 path (caught by the surrounding try). -/
def createNewMeta (fs : Fs) (name path now : Str) : Bool × Fs :=
  match getMetadataFilePath path with
  | none => (false, fs)
  | some f =>
    if fsHas fs f then (false, fs)
    else (true, fsWrite fs f (.ok (initialMetaContent name path now)))

/-- The front-matter extraction regex of `readMeta` (opening `---` line,
minimal inner block, closing line starting with `---`), on lines. -/
def extractFMLines (lines : List Str) : Option (List Str) :=
  match lines with
  | [] => none
  | first :: rest =>
    if first = "---".data then
      match rest.findIdx? (fun l => "---".data.isPrefixOf l) with
      | some j => some (rest.take j)
      | none => none
    else none

/-- `TagNode.readMeta`: parses the sidecar front-matter; empty record when
the file is missing, unreadable, non-Latin-1-pathed, or has no front-matter
block (all caught/degraded in the source). -/
def readMeta (fs : Fs) (path : Str) : Record :=
  match getMetadataFilePath path with
  | none => []
  | some f =>
    match fsLookup fs f with
    | none => []
    | some .err => []
    | some (.ok content) =>
      match extractFMLines (splitOnChar '\n' content) with
      | none => []
      | some inner => parseFrontmatter inner

/-- The front-matter extraction regex of `updateMeta` (the matched block plus
the `\n*` consumption): front-matter
lines plus the preserved body text. -/
def extractFMBody (lines : List Str) : Option (List Str × Str) :=
  match lines with
  | [] => none
  | first :: rest =>
    if first = "---".data then
      match rest.findIdx? (fun l => "---".data.isPrefixOf l) with
      | some j =>
        some (rest.take j,
          if (rest.getD j []).drop 3 = [] then
            List.intercalate ['\n'] ((rest.drop (j + 1)).dropWhile (fun l => l = []))
          else
            List.intercalate ['\n'] ((rest.getD j []).drop 3 :: rest.drop (j + 1)))
      | none => none
    else none

/-- `TagNode.updateMeta`: parses the existing front-matter, merges the
payload via the type-aware rules, re-serializes, and writes back preserving
the body; `false` when the sidecar is missing/unreadable or the path is not
Latin-1. -/
def updateMeta (fs : Fs) (path : Str) (payload : Record) : Bool × Fs :=
  match getMetadataFilePath path with
  | none => (false, fs)
  | some f =>
    match fsLookup fs f with
    | none => (false, fs)
    | some .err => (false, fs)
    | some (.ok content) =>
      let fmBody :=
        match extractFMBody (splitOnChar '\n' content) with
        | some r => r
        | none => ([], [])
      let merged := mergeRecord (parseFrontmatter fmBody.1) payload
      let newContent := "---\n".data
        ++ List.intercalate ['\n'] (serializeFrontmatter merged)
        ++ "\n---\n\n".data ++ fmBody.2
      (true, fsWrite fs f (.ok newContent))

/-- `TagNode.deleteMeta`: unlinks the sidecar; `false` if absent or the path
is not Latin-1. -/
def deleteMeta (fs : Fs) (path : Str) : Bool × Fs :=
  match getMetadataFilePath path with
  | none => (false, fs)
  | some f => if fsHas fs f then (true, fsErase fs f) else (false, fs)

-- ==================== tree entities ====================

/-- `FileLeaf`: name, vault path and owning tag path.  The `TFile` reference
held by the source object is existence-checked at construction (the
constructor throws when the vault has no file at the path); the check is
modelled at each construction site against the vault's path list. -/
structure FileLeaf where
  name : Str
  path : Str
  tagpath : Str
deriving DecidableEq

mutual
inductive TagNode where
  | mk (name : Str) (path : Str) (children : Children) (files : List FileLeaf)
inductive Children where
  | nil
  | cons (key : Str) (node : TagNode) (rest : Children)
end

def TagNode.name : TagNode → Str
  | .mk n _ _ _ => n

def TagNode.path : TagNode → Str
  | .mk _ p _ _ => p

def TagNode.children : TagNode → Children
  | .mk _ _ c _ => c

def TagNode.files : TagNode → List FileLeaf
  | .mk _ _ _ f => f

/-- `this.children[name]` — `Record` key lookup. -/
def Children.lookup : Children → Str → Option TagNode
  | .nil, _ => none
  | .cons k c rest, s => if k = s then some c else rest.lookup s

/-- `Object.keys(children)`. -/
def Children.keys : Children → List Str
  | .nil => []
  | .cons k _ rest => k :: rest.keys

/-- `Object.values(children)`. -/
def Children.nodes : Children → List TagNode
  | .nil => []
  | .cons _ c rest => c :: rest.nodes

/-- `children[name] = node` for a fresh key (insertion appends). -/
def Children.append1 : Children → Str → TagNode → Children
  | .nil, k, c => .cons k c .nil
  | .cons k0 c0 rest, k, c => .cons k0 c0 (rest.append1 k c)

/-- In-place mutation of the child found under a key, as seen functionally:
the first entry with the key is replaced. -/
def Children.replaceFirst : Children → Str → TagNode → Children
  | .nil, _, _ => .nil
  | .cons k0 c0 rest, s, c =>
    if k0 = s then .cons k0 c rest else .cons k0 c0 (rest.replaceFirst s c)

/-- `delete children[name]`. -/
def Children.eraseFirst : Children → Str → Children
  | .nil, _ => .nil
  | .cons k0 c0 rest, s => if k0 = s then rest else .cons k0 c0 (rest.eraseFirst s)

def TagNode.getChild (t : TagNode) (s : Str) : Option TagNode := t.children.lookup s

/-- `TagNode.getFile`: linear scan of the files set by name. -/
def TagNode.getFile (t : TagNode) (n : Str) : Option FileLeaf :=
  t.files.find? (fun f => f.name = n)

/-- The `TagNode` constructor: empty children and files, and the
`createNewMeta` side effect on the metadata directory.  The parent pointer
of the source is represented by containment in the parent's children map. -/
def mkTagNode (name path : Str) (fs : Fs) (now : Str) : TagNode × Fs :=
  (.mk name path .nil [], (createNewMeta fs name path now).2)

/-- `TagNode.addChildNode`: validates and trims the name, rejects an
existing child key, and otherwise constructs the child (with
`path = this.path + '/' + childName`, or the bare name for an empty parent
path) and adds it to the children map. -/
def addChildNode (t : TagNode) (fs : Fs) (now : Str) (newChildTagName : Str) :
    Bool × TagNode × Fs :=
  if jsTrim newChildTagName = [] then (false, t, fs)
  else if (t.getChild (jsTrim newChildTagName)).isSome then (false, t, fs)
  else
    (true,
      .mk t.name t.path
        (t.children.append1 (jsTrim newChildTagName)
          (mkTagNode (jsTrim newChildTagName)
            (if t.path = [] then jsTrim newChildTagName
             else t.path ++ '/' :: jsTrim newChildTagName) fs now).1)
        t.files,
      (mkTagNode (jsTrim newChildTagName)
        (if t.path = [] then jsTrim newChildTagName
         else t.path ++ '/' :: jsTrim newChildTagName) fs now).2)

/-- `TagNode.createNewFile`: validation, name-based duplicate check (on the
untrimmed argument), then `FileLeaf` construction — which throws (caught,
`false`) when the trimmed path has no file in the vault. -/
def createNewFile (t : TagNode) (vaultPaths : List Str) (nameOfFile pathToFile : Str) :
    Bool × TagNode :=
  if nameOfFile = [] ∨ pathToFile = [] ∨ jsTrim nameOfFile = [] ∨ jsTrim pathToFile = [] then
    (false, t)
  else if (t.getFile nameOfFile).isSome then (false, t)
  else if jsTrim pathToFile ∈ vaultPaths then
    (true, .mk t.name t.path t.children
      (t.files ++ [⟨jsTrim nameOfFile, jsTrim pathToFile, t.path⟩]))
  else (false, t)

def eraseFirstFile : List FileLeaf → Str → List FileLeaf
  | [], _ => []
  | f :: rest, n => if f.name = n then rest else f :: eraseFirstFile rest n

/-- `TagNode.removeChildNode`: detaches the child (orphaning its subtree)
and deletes the child's metadata sidecar. -/
def removeChildNode (t : TagNode) (fs : Fs) (childTagName : Str) : Bool × TagNode × Fs :=
  match t.getChild childTagName with
  | none => (false, t, fs)
  | some c =>
    (true, .mk t.name t.path (t.children.eraseFirst childTagName) t.files,
      (deleteMeta fs c.path).2)

/-- `TagNode.removeFile`. -/
def removeFile (t : TagNode) (fileName : Str) : Bool × TagNode :=
  match t.getFile fileName with
  | none => (false, t)
  | some _ => (true, .mk t.name t.path t.children (eraseFirstFile t.files fileName))

-- ==================== TreeRoot ====================

/-- A vault file as seen by the scan: Obsidian basename, vault path, and the
tag paths `FileLeaf.retrieveAllPaths` extracts from it (the label extractor
is an external collaborator; its output is data here). -/
structure VFile where
  basename : Str
  path : Str
  tags : List Str

/-- The aggregate root.  `treeVersion` is modelled from the spec: the version
counter and its accessor are referenced by `main.ts` and the model interface
(`getTreeVersion`) but absent from the provided `TreeRoot.ts`; per §5 of the
spec it is a monotonically increasing counter incremented on every successful
recompute. -/
structure TreeRoot where
  rootTags : List TagNode
  untaggedFiles : List FileLeaf
  excludedFolders : List Str
  treeVersion : Nat

/-- Modelled from the spec: the read-only version counter accessor. -/
def getTreeVersion (r : TreeRoot) : Nat := r.treeVersion

/-- First root tag with a given name (`for (const rootTag of this.rootTags)`
with a name comparison). -/
def findRootTag : List TagNode → Str → Option TagNode
  | [], _ => none
  | t :: rest, n => if t.name = n then some t else findRootTag rest n

/-- Functional counterpart of mutating the root tag found by name. -/
def replaceRootTag : List TagNode → Str → TagNode → List TagNode
  | [], _, _ => []
  | t :: rest, n, t' => if t.name = n then t' :: rest else t :: replaceRootTag rest n t'

/-- `this.rootTags.delete(rootTag)` for the first tag with the name. -/
def eraseRootTag : List TagNode → Str → List TagNode
  | [], _ => []
  | t :: rest, n => if t.name = n then rest else t :: eraseRootTag rest n

/-- The `getChild` walk of `TreeRoot.getNode` over the remaining segments. -/
def navigate (t : TagNode) : List Str → Option TagNode
  | [] => some t
  | s :: rest =>
    match t.getChild s with
    | none => none
    | some c => navigate c rest

/-- Result of `TreeRoot.getNode`: the synthetic root proxy (for an
empty/whitespace path or one with no segments), a found node, or `null`. -/
inductive NodeRes where
  | rootProxy
  | found (t : TagNode)
  | missing

/-- `TreeRoot.getNode` on the root tag forest. -/
def getNodeRoots (roots : List TagNode) (tagpath : Str) : NodeRes :=
  if jsTrim tagpath = [] then .rootProxy
  else
    match splitSegs tagpath with
    | [] => .rootProxy
    | s :: rest =>
      match findRootTag roots s with
      | none => .missing
      | some t =>
        match navigate t rest with
        | none => .missing
        | some x => .found x

/-- `TreeRoot.getNode`. -/
def getNode (r : TreeRoot) (tagpath : Str) : NodeRes :=
  getNodeRoots r.rootTags tagpath

/-- Splits a non-empty segment list into the middle segments walked by
`delChildNode`'s parent navigation and the final segment it removes. -/
def splitLastSeg : List Str → List Str × Str
  | [] => ([], [])
  | [x] => ([], x)
  | x :: xs =>
    let r := splitLastSeg xs
    (x :: r.1, r.2)

/-- The parent walk plus `removeChildNode` call of `delChildNode`, as a
functional update along the path. -/
def removeAt (t : TagNode) (fs : Fs) : List Str → Str → Option Bool × TagNode × Fs
  | [], lastSeg =>
    let r := removeChildNode t fs lastSeg
    (some r.1, r.2.1, r.2.2)
  | m :: ms, lastSeg =>
    match t.getChild m with
    | none => (none, t, fs)
    | some c =>
      let r := removeAt c fs ms lastSeg
      (r.1, .mk t.name t.path (t.children.replaceFirst m r.2.1) t.files, r.2.2)

/-- `TreeRoot.delChildNode`. -/
def delChildNode (r : TreeRoot) (fs : Fs) (tagpath : Str) : Option Bool × TreeRoot × Fs :=
  if jsTrim tagpath = [] then (none, r, fs)
  else
    match splitSegs tagpath with
    | [] => (none, r, fs)
    | [s] =>
      match findRootTag r.rootTags s with
      | some _ => (some true, { r with rootTags := eraseRootTag r.rootTags s }, fs)
      | none => (none, r, fs)
    | s :: s2 :: rest =>
      match findRootTag r.rootTags s with
      | none => (none, r, fs)
      | some t =>
        let ml := splitLastSeg (s2 :: rest)
        let res := removeAt t fs ml.1 ml.2
        (res.1, { r with rootTags := replaceRootTag r.rootTags s res.2.1 }, res.2.2)

def findFileByNamePath (files : List FileLeaf) (n p : Str) : Option FileLeaf :=
  files.find? (fun f => f.name = n ∧ f.path = p)

def eraseFileByNamePath : List FileLeaf → Str → Str → List FileLeaf
  | [], _, _ => []
  | f :: rest, n, p =>
    if f.name = n ∧ f.path = p then rest else f :: eraseFileByNamePath rest n p

/-- The `removeFile` delegation of `delChildFile`, as a functional update
along the path walked by `getNode`. -/
def removeFileAt (t : TagNode) : List Str → Str → Option Bool × TagNode
  | [], fname =>
    let r := removeFile t fname
    (some r.1, r.2)
  | s :: rest, fname =>
    match t.getChild s with
    | none => (none, t)
    | some c =>
      let r := removeFileAt c rest fname
      (r.1, .mk t.name t.path (t.children.replaceFirst s r.2) t.files)

/-- `TreeRoot.delChildFile`: empty tag path removes from the untagged set by
(name, path); a path with no segments resolves to the root proxy, whose
`removeFile` removes from the untagged set by name; otherwise the resolved
node's `removeFile` removes by name. -/
def delChildFile (r : TreeRoot) (filename filepath tagpath : Str) : Option Bool × TreeRoot :=
  if jsTrim tagpath = [] then
    match findFileByNamePath r.untaggedFiles filename filepath with
    | some _ =>
      (some true, { r with untaggedFiles := eraseFileByNamePath r.untaggedFiles filename filepath })
    | none => (none, r)
  else
    match splitSegs tagpath with
    | [] =>
      if (r.untaggedFiles.find? (fun f => f.name = filename)).isSome then
        (some true, { r with untaggedFiles := eraseFirstFile r.untaggedFiles filename })
      else (some false, r)
    | s :: rest =>
      match findRootTag r.rootTags s with
      | none => (none, r)
      | some t =>
        let res := removeFileAt t rest filename
        (res.1, { r with rootTags := replaceRootTag r.rootTags s res.2 })

-- ==================== tree computation ====================

/-- The hierarchy walk of `addFileToTagPath` from the first-segment node:
navigate or create each child (via `addChildNode`, which trims), and attach
the file at the terminal node via `createNewFile`; a failed child creation
aborts the walk (the `if (!currentNode) return` safety check). -/
def walkCreate (t : TagNode) (segs : List Str) (fname fpath : Str) (vaultPaths : List Str)
    (fs : Fs) (now : Str) : TagNode × Fs :=
  match segs with
  | [] => ((createNewFile t vaultPaths fname fpath).2, fs)
  | seg :: rest =>
    match t.getChild seg with
    | some c =>
      let r := walkCreate c rest fname fpath vaultPaths fs now
      (.mk t.name t.path (t.children.replaceFirst seg r.1) t.files, r.2)
    | none =>
      let a := addChildNode t fs now seg
      match a.2.1.getChild seg with
      | some c =>
        let r := walkCreate c rest fname fpath vaultPaths a.2.2 now
        (.mk a.2.1.name a.2.1.path (a.2.1.children.replaceFirst seg r.1) a.2.1.files, r.2)
      | none => (a.2.1, a.2.2)

/-- `TreeRoot.addFileToTagPath`: find or create the root tag for the first
segment, then walk/create the rest of the chain and attach the file. -/
def addFileToTagPath (roots : List TagNode) (leaf : FileLeaf) (tagPath : Str)
    (vaultPaths : List Str) (fs : Fs) (now : Str) : List TagNode × Fs :=
  match splitSegs tagPath with
  | [] => (roots, fs)
  | s :: rest =>
    match findRootTag roots s with
    | some t =>
      let r := walkCreate t rest leaf.name leaf.path vaultPaths fs now
      (replaceRootTag roots s r.1, r.2)
    | none =>
      let m := mkTagNode s s fs now
      let r := walkCreate m.1 rest leaf.name leaf.path vaultPaths m.2 now
      (replaceRootTag (roots ++ [m.1]) s r.1, r.2)

/-- The hierarchy walk of `createTagNodeHierarchy` (no file attached). -/
def walkCreateOnly (t : TagNode) (segs : List Str) (fs : Fs) (now : Str) : TagNode × Fs :=
  match segs with
  | [] => (t, fs)
  | seg :: rest =>
    match t.getChild seg with
    | some c =>
      let r := walkCreateOnly c rest fs now
      (.mk t.name t.path (t.children.replaceFirst seg r.1) t.files, r.2)
    | none =>
      let a := addChildNode t fs now seg
      match a.2.1.getChild seg with
      | some c =>
        let r := walkCreateOnly c rest a.2.2 now
        (.mk a.2.1.name a.2.1.path (a.2.1.children.replaceFirst seg r.1) a.2.1.files, r.2)
      | none => (a.2.1, a.2.2)

/-- `TreeRoot.createTagNodeHierarchy`. -/
def createTagNodeHierarchy (roots : List TagNode) (tagPath : Str) (fs : Fs) (now : Str) :
    List TagNode × Fs :=
  match splitSegs tagPath with
  | [] => (roots, fs)
  | s :: rest =>
    match findRootTag roots s with
    | some t =>
      let r := walkCreateOnly t rest fs now
      (replaceRootTag roots s r.1, r.2)
    | none =>
      let m := mkTagNode s s fs now
      let r := walkCreateOnly m.1 rest m.2 now
      (replaceRootTag (roots ++ [m.1]) s r.1, r.2)

/-- `TreeRoot.processFile`: build the `FileLeaf` (whose constructor throws,
caught, when the path is not in the vault), then attach it under every tag
path, or to the untagged set when it has none. -/
def processFile (roots : List TagNode) (untagged : List FileLeaf) (fs : Fs) (f : VFile)
    (vaultPaths : List Str) (now : Str) : List TagNode × List FileLeaf × Fs :=
  if f.path ∈ vaultPaths then
    let leaf : FileLeaf := ⟨f.basename, f.path, []⟩
    if f.tags = [] then (roots, untagged ++ [leaf], fs)
    else
      let r := f.tags.foldl
        (fun acc tp => addFileToTagPath acc.1 leaf tp vaultPaths acc.2 now) (roots, fs)
      (r.1, untagged, r.2)
  else (roots, untagged, fs)

/-- The per-file loop of `recomputeTree`'s vault scan (the recursive folder
walk is modelled as the sequence of files it visits). -/
def processAllFiles (vault : List VFile) (roots : List TagNode) (untagged : List FileLeaf)
    (fs : Fs) (vaultPaths : List Str) (now : Str) : List TagNode × List FileLeaf × Fs :=
  match vault with
  | [] => (roots, untagged, fs)
  | f :: rest =>
    let r := processFile roots untagged fs f vaultPaths now
    processAllFiles rest r.1 r.2.1 r.2.2 vaultPaths now

/-- The per-filename loop of `populateEmptyTagFoldersFromMetadata` over the
snapshot of the metadata directory listing. -/
def populateLoop (names : List Str) (roots : List TagNode) (fs : Fs) (now : Str) :
    List TagNode × Fs :=
  match names with
  | [] => (roots, fs)
  | fname :: rest =>
    if endsWithMd fname then
      let tagPath := extractTagPathFromFilename fname
      if tagPath = [] ∨ jsTrim tagPath = [] then populateLoop rest roots fs now
      else
        match getNodeRoots roots tagPath with
        | .missing =>
          let r := createTagNodeHierarchy roots tagPath fs now
          populateLoop rest r.1 r.2 now
        | _ => populateLoop rest roots fs now
    else populateLoop rest roots fs now

/-- `TreeRoot.populateEmptyTagFoldersFromMetadata`: for every sidecar file,
decode its tag path and synthesize the node chain when the tree lacks it. -/
def populateEmptyTagFoldersFromMetadata (roots : List TagNode) (fs : Fs) (now : Str) :
    List TagNode × Fs :=
  populateLoop (fs.map (fun e => e.1)) roots fs now

/-- `TreeRoot.recomputeTree`: clears the tree, derives the exclusion set from
the newline-separated setting, scans the vault, then restores empty tag
folders from sidecars.  The version increment is modelled from the spec
(incremented on every successful recompute). -/
def recomputeTree (r : TreeRoot) (folderPathsToSkip : Str) (vault : List VFile) (fs : Fs)
    (now : Str) : TreeRoot × Fs :=
  let excluded := (splitOnChar '\n' folderPathsToSkip).filter (fun l => l ≠ [])
  let scanned := processAllFiles vault [] [] fs (vault.map (fun f => f.path)) now
  let pop := populateEmptyTagFoldersFromMetadata scanned.1 scanned.2.2 now
  ({ rootTags := pop.1, untaggedFiles := scanned.2.1, excludedFolders := excluded,
     treeVersion := r.treeVersion + 1 }, pop.2)

-- ==================== serialization ====================

/-- A serialized file entry of `serializeTree`. -/
structure SFile where
  name : Str
  path : Str
  tagpath : Str
deriving DecidableEq

mutual
inductive SNode where
  | mk (name : Str) (path : Str) (children : SNodeList) (files : List SFile)
      (totalFileCount : Nat)
inductive SNodeList where
  | nil
  | cons (head : SNode) (tail : SNodeList)
end

def SNode.totalFileCount : SNode → Nat
  | .mk _ _ _ _ c => c

/-- The `reduce` over serialized children summing `totalFileCount`. -/
def sumCounts : SNodeList → Nat
  | .nil => 0
  | .cons s rest => s.totalFileCount + sumCounts rest

mutual
/-- The `serializeNode` closure of `TreeRoot.serializeTree`: children first,
then `totalFileCount` as direct file count plus the serialized children's
counts. -/
def serializeNode : TagNode → SNode
  | .mk n p ch fl =>
    .mk n p (serializeChildren ch) (fl.map (fun f => ⟨f.name, f.path, f.tagpath⟩))
      (fl.length + sumCounts (serializeChildren ch))
def serializeChildren : Children → SNodeList
  | .nil => .nil
  | .cons _ c rest => .cons (serializeNode c) (serializeChildren rest)
end

/-- `TreeRoot.serializeTree`: serialized root tags plus the untagged list. -/
def serializeTree (r : TreeRoot) : List SNode × List SFile :=
  (r.rootTags.map serializeNode, r.untaggedFiles.map (fun f => ⟨f.name, f.path, f.tagpath⟩))

mutual
/-- The size of the full recursive document set rooted at a node: direct
files plus all descendants' files (the spec's fresh recursive count). -/
def subtreeFileCount : TagNode → Nat
  | .mk _ _ ch fl => fl.length + childrenFileCount ch
def childrenFileCount : Children → Nat
  | .nil => 0
  | .cons _ c rest => subtreeFileCount c + childrenFileCount rest
end

-- ==================== induction helpers ====================

theorem tagNode_ind (P : TagNode → Prop) (Q : Children → Prop)
    (h1 : ∀ n p ch fl, Q ch → P (.mk n p ch fl))
    (h2 : Q .nil)
    (h3 : ∀ k c rest, P c → Q rest → Q (.cons k c rest)) : ∀ t, P t :=
  fun t => @TagNode.rec P Q h1 h2 h3 t

theorem children_ind (P : TagNode → Prop) (Q : Children → Prop)
    (h1 : ∀ n p ch fl, Q ch → P (.mk n p ch fl))
    (h2 : Q .nil)
    (h3 : ∀ k c rest, P c → Q rest → Q (.cons k c rest)) : ∀ ch, Q ch :=
  fun ch => @Children.rec P Q h1 h2 h3 ch

-- ==================== C4: serialized count correctness ====================

/-- **C4.** Serialized count correctness: the `totalFileCount` computed by
serialization equals the fresh recursive file count of the subtree, for
every node; in particular 0 for a node with no files and no children, 1 for
a single node with one file, and the sum across levels for a three-level
chain with a file at each level. -/
theorem C4_serialize_totalFileCount_correct :
    (∀ t : TagNode, (serializeNode t).totalFileCount = subtreeFileCount t) ∧
    (serializeNode (.mk "a".data "a".data .nil [])).totalFileCount = 0 ∧
    (serializeNode (.mk "a".data "a".data .nil
      [⟨"f".data, "f.md".data, "a".data⟩])).totalFileCount = 1 ∧
    (serializeNode (.mk "a".data "a".data
      (.cons "b".data (.mk "b".data "a/b".data
        (.cons "c".data (.mk "c".data "a/b/c".data .nil
          [⟨"f3".data, "f3.md".data, "a/b/c".data⟩]) .nil)
        [⟨"f2".data, "f2.md".data, "a/b".data⟩]) .nil)
      [⟨"f1".data, "f1.md".data, "a".data⟩])).totalFileCount = 3 := by
  refine ⟨?_, rfl, rfl, rfl⟩
  apply tagNode_ind
    (fun t => (serializeNode t).totalFileCount = subtreeFileCount t)
    (fun ch => sumCounts (serializeChildren ch) = childrenFileCount ch)
  · intro n p ch fl hq
    simp only [serializeNode, SNode.totalFileCount, subtreeFileCount, hq]
  · rfl
  · intro k c rest hp hq
    simp only [serializeChildren, sumCounts, childrenFileCount, hp, hq]

-- ==================== C2: version counter ====================

/-- **C2.** The version counter (modelled from the spec) strictly increases
on every successful recompute and is preserved by the other tree-level
mutations, hence never decreases; `getTreeVersion` is its read-only
accessor. -/
theorem C2_version_counter_monotone :
    ∀ (r : TreeRoot) (cfg : Str) (vault : List VFile) (fs : Fs) (now : Str),
      (getTreeVersion (recomputeTree r cfg vault fs now).1 = getTreeVersion r + 1) ∧
      (getTreeVersion r < getTreeVersion (recomputeTree r cfg vault fs now).1) ∧
      (∀ p, getTreeVersion (delChildNode r fs p).2.1 = getTreeVersion r) ∧
      (∀ fn fp tp, getTreeVersion (delChildFile r fn fp tp).2 = getTreeVersion r) := by
  intro r cfg vault fs now
  refine ⟨rfl, by simp [recomputeTree, getTreeVersion], ?_, ?_⟩
  · intro p
    unfold delChildNode
    split
    · rfl
    · split <;> try rfl
      · split <;> rfl
      · split <;> rfl
  · intro fn fp tp
    unfold delChildFile
    split
    · split <;> rfl
    · split
      · split <;> rfl
      · split <;> rfl

/-- Witness: the version-counter theorem applied at a concrete state. -/
theorem C2_version_counter_monotone_witness :
    getTreeVersion (recomputeTree ⟨[], [], [], 5⟩ [] [] [] []).1 = getTreeVersion ⟨[], [], [], 5⟩ + 1 :=
  (C2_version_counter_monotone ⟨[], [], [], 5⟩ [] [] [] []).1

-- ==================== C3: uniqueness (code bug) ====================

/-- **C3.** The code violates the file-name uniqueness invariant:
`createNewFile` checks for duplicates with the untrimmed argument but stores
the trimmed name, so adding `" x"` to a node already holding `"x"` succeeds
and leaves two files whose stored names are both `"x"`. -/
theorem C3_uniqueness_violated_by_untrimmed_check :
    ((createNewFile
        (createNewFile (.mk "t".data "t".data .nil [])
          ["p1".data, "p2".data] "x".data "p1".data).2
        ["p1".data, "p2".data] " x".data "p2".data).1 = true) ∧
    ((createNewFile
        (createNewFile (.mk "t".data "t".data .nil [])
          ["p1".data, "p2".data] "x".data "p1".data).2
        ["p1".data, "p2".data] " x".data "p2".data).2.files.map FileLeaf.name
      = ["x".data, "x".data]) := by
  exact ⟨by decide, by decide⟩

-- ==================== C8: readMeta error degradation ====================

/-- **C8.** `readMeta` never throws: it returns the empty record when the
sidecar path is not encodable, when the file is missing, when reading it
fails, or when the content has no front-matter block; otherwise it returns
the parsed record — and the parser skips unrecognized lines rather than
failing. -/
theorem C8_readMeta_error_degradation :
    ∀ (fs : Fs) (path : Str),
      (getMetadataFilePath path = none → readMeta fs path = []) ∧
      (∀ f, getMetadataFilePath path = some f → fsLookup fs f = none →
        readMeta fs path = []) ∧
      (∀ f, getMetadataFilePath path = some f → fsLookup fs f = some .err →
        readMeta fs path = []) ∧
      (∀ f c, getMetadataFilePath path = some f → fsLookup fs f = some (.ok c) →
        extractFMLines (splitOnChar '\n' c) = none → readMeta fs path = []) ∧
      (∀ f c inner, getMetadataFilePath path = some f → fsLookup fs f = some (.ok c) →
        extractFMLines (splitOnChar '\n' c) = some inner →
        readMeta fs path = parseFrontmatter inner) ∧
      (∀ fuel line rest acc, isAllWs line = false → lineKeyRest line = none →
        parseFMLoop (fuel + 1) (line :: rest) acc = parseFMLoop fuel rest acc) := by
  intro fs path
  refine ⟨?_, ?_, ?_, ?_, ?_, ?_⟩
  · intro h; simp [readMeta, h]
  · intro f hf hl; simp [readMeta, hf, hl]
  · intro f hf hl; simp [readMeta, hf, hl]
  · intro f c hf hl he; simp [readMeta, hf, hl, he]
  · intro f c inner hf hl he; simp [readMeta, hf, hl, he]
  · intro fuel line rest acc hws hkey
    simp [parseFMLoop, hws, hkey]

/-- Witness: `readMeta` degradation at concrete states — a missing sidecar,
an unreadable sidecar, and content without front-matter all give the empty
record. -/
theorem C8_readMeta_error_degradation_witness :
    readMeta [] "a".data = [] ∧
    readMeta [("a_YQ==.md".data, .err)] "a".data = [] ∧
    readMeta [("a_YQ==.md".data, .ok "no frontmatter".data)] "a".data = [] :=
  ⟨(C8_readMeta_error_degradation [] "a".data).2.1 "a_YQ==.md".data (by decide) rfl,
   (C8_readMeta_error_degradation [("a_YQ==.md".data, .err)] "a".data).2.2.1
     "a_YQ==.md".data (by decide) rfl,
   (C8_readMeta_error_degradation [("a_YQ==.md".data, .ok "no frontmatter".data)]
     "a".data).2.2.2.1 "a_YQ==.md".data "no frontmatter".data (by decide) rfl rfl⟩

-- ==================== C7: addChild contract and path consistency ====================

theorem addChildNode_preserves_name_path (t : TagNode) (fs : Fs) (now n : Str) :
    (addChildNode t fs now n).2.1.name = t.name ∧
      (addChildNode t fs now n).2.1.path = t.path := by
  unfold addChildNode
  split
  · exact ⟨rfl, rfl⟩
  · split
    · exact ⟨rfl, rfl⟩
    · exact ⟨rfl, rfl⟩

theorem createNewFile_preserves_name_path (t : TagNode) (v : List Str) (n p : Str) :
    (createNewFile t v n p).2.name = t.name ∧ (createNewFile t v n p).2.path = t.path := by
  unfold createNewFile
  split
  · exact ⟨rfl, rfl⟩
  · split
    · exact ⟨rfl, rfl⟩
    · split
      · exact ⟨rfl, rfl⟩
      · exact ⟨rfl, rfl⟩

theorem walkCreate_preserves_name_path (t : TagNode) (segs : List Str) (fn fp : Str)
    (v : List Str) (fs : Fs) (now : Str) :
    (walkCreate t segs fn fp v fs now).1.name = t.name ∧
      (walkCreate t segs fn fp v fs now).1.path = t.path := by
  match segs with
  | [] =>
    simp only [walkCreate]
    exact createNewFile_preserves_name_path t v fn fp
  | seg :: rest =>
    simp only [walkCreate]
    split
    · exact ⟨rfl, rfl⟩
    · split
      · exact ⟨(addChildNode_preserves_name_path t fs now seg).1,
          (addChildNode_preserves_name_path t fs now seg).2⟩
      · exact addChildNode_preserves_name_path t fs now seg

theorem lookup_append1_self : ∀ (ch : Children) (k : Str) (c : TagNode),
    ch.lookup k = none → (ch.append1 k c).lookup k = some c
  | .nil, k, c, _ => by simp [Children.append1, Children.lookup]
  | .cons k0 c0 rest, k, c, h => by
    simp only [Children.lookup] at h
    by_cases hk : k0 = k
    · rw [if_pos hk] at h; exact absurd h (by simp)
    · simp only [Children.append1, Children.lookup, if_neg hk] at h ⊢
      exact lookup_append1_self rest k c h

theorem findRootTag_append_left (roots l : List TagNode) (s : Str)
    (h : findRootTag roots s = none) :
    findRootTag (roots ++ l) s = findRootTag l s := by
  induction roots with
  | nil => rfl
  | cons t rest ih =>
    simp only [findRootTag] at h
    by_cases hn : t.name = s
    · rw [if_pos hn] at h; exact absurd h (by simp)
    · simp only [List.cons_append, findRootTag, if_neg hn] at h ⊢
      exact ih h

theorem replaceRootTag_append_left (roots l : List TagNode) (s : Str) (y : TagNode)
    (h : findRootTag roots s = none) :
    replaceRootTag (roots ++ l) s y = roots ++ replaceRootTag l s y := by
  induction roots with
  | nil => rfl
  | cons t rest ih =>
    simp only [findRootTag] at h
    by_cases hn : t.name = s
    · rw [if_pos hn] at h; exact absurd h (by simp)
    · simp only [List.cons_append, replaceRootTag, if_neg hn] at h ⊢
      exact congrArg (List.cons t) (ih h)

/-- **C7.** `addChildNode` contract and path consistency: empty/whitespace
names are rejected; an existing trimmed name leaves the node unchanged with
`false`; on success the new child lives under the trimmed name in the
receiver's children (the parent pointer of the source), is freshly
initialized, and its path is `parent.path + "/" + name` (or the name alone
for a top-level parent) — and a root tag freshly created by the recompute
hierarchy walk likewise has `path = name`. -/
theorem C7_addChild_contract_path_consistency :
    (∀ (t : TagNode) (fs : Fs) (now n : Str),
      (jsTrim n = [] → addChildNode t fs now n = (false, t, fs)) ∧
      ((t.getChild (jsTrim n)).isSome → addChildNode t fs now n = (false, t, fs)) ∧
      (jsTrim n ≠ [] → t.getChild (jsTrim n) = none →
        (addChildNode t fs now n).1 = true ∧
        (addChildNode t fs now n).2.1.getChild (jsTrim n) =
          some (.mk (jsTrim n)
            (if t.path = [] then jsTrim n else t.path ++ '/' :: jsTrim n) .nil []) ∧
        (addChildNode t fs now n).2.1.name = t.name ∧
        (addChildNode t fs now n).2.1.path = t.path)) ∧
    (∀ (roots : List TagNode) (leaf : FileLeaf) (tagPath : Str) (v : List Str)
        (fs : Fs) (now s : Str) (rest : List Str),
      splitSegs tagPath = s :: rest → findRootTag roots s = none →
      ∃ t', findRootTag (addFileToTagPath roots leaf tagPath v fs now).1 s = some t' ∧
        t'.name = s ∧ t'.path = s) := by
  constructor
  · intro t fs now n
    refine ⟨?_, ?_, ?_⟩
    · intro h; unfold addChildNode; rw [if_pos h]
    · intro h
      unfold addChildNode
      split
      · rfl
      · rfl
    · intro hne hnone
      unfold addChildNode
      rw [if_neg hne, hnone]
      simp only [Option.isSome_none, Bool.false_eq_true, if_false]
      refine ⟨trivial, ?_, rfl, rfl⟩
      show Children.lookup (t.children.append1 (jsTrim n) _) (jsTrim n) = _
      exact lookup_append1_self t.children (jsTrim n) _ hnone
  · intro roots leaf tagPath v fs now s rest hsegs hfind
    simp only [addFileToTagPath, hsegs, hfind]
    have hw := walkCreate_preserves_name_path
      (mkTagNode s s fs now).1 rest leaf.name leaf.path v (mkTagNode s s fs now).2 now
    have hname : (mkTagNode s s fs now).1.name = s := rfl
    have hpath : (mkTagNode s s fs now).1.path = s := rfl
    refine ⟨(walkCreate (mkTagNode s s fs now).1 rest leaf.name leaf.path v
      (mkTagNode s s fs now).2 now).1, ?_, hw.1.trans hname, hw.2.trans hpath⟩
    rw [replaceRootTag_append_left roots _ s _ hfind,
      findRootTag_append_left roots _ s hfind]
    simp only [replaceRootTag, findRootTag, hname, if_pos rfl]
    rw [if_pos (hw.1.trans hname)]

/-- Witness: the `addChildNode` contract at concrete inputs — rejection of a
whitespace name, rejection of a duplicate, and a successful creation with
the composed path. -/
theorem C7_addChild_contract_path_consistency_witness :
    (addChildNode (.mk "a".data "a".data .nil []) [] "T".data "  ".data =
      (false, .mk "a".data "a".data .nil [], [])) ∧
    ((addChildNode (.mk "a".data "a".data .nil []) [] "T".data " b ".data).1 = true ∧
      (addChildNode (.mk "a".data "a".data .nil []) [] "T".data " b ".data).2.1.getChild
          "b".data =
        some (.mk "b".data "a/b".data .nil [])) := by
  refine ⟨(C7_addChild_contract_path_consistency.1 (.mk "a".data "a".data .nil [])
    [] "T".data "  ".data).1 (by decide), ?_, ?_⟩
  · exact ((C7_addChild_contract_path_consistency.1 (.mk "a".data "a".data .nil [])
      [] "T".data " b ".data).2.2 (by decide) rfl).1
  · have h := ((C7_addChild_contract_path_consistency.1 (.mk "a".data "a".data .nil [])
      [] "T".data " b ".data).2.2 (by decide) rfl).2.1
    exact h

-- ==================== C6: orphaning contract of delChildNode ====================

/-- Whether a key occurs in a children map. -/
def keyMem (k : Str) : Children → Bool
  | .nil => false
  | .cons k0 _ rest => k0 = k || keyMem k rest

/-- JavaScript `Record` semantics: sibling keys are unique. -/
def nodupKeysB : Children → Bool
  | .nil => true
  | .cons k _ rest => !keyMem k rest && nodupKeysB rest

mutual
/-- Structural well-formedness that every tree built through the JavaScript
`Record`-keyed children maps satisfies: unique sibling keys, recursively. -/
def wfTreeB : TagNode → Bool
  | .mk _ _ ch _ => nodupKeysB ch && wfChildrenB ch
def wfChildrenB : Children → Bool
  | .nil => true
  | .cons _ c rest => wfTreeB c && wfChildrenB rest
end

def allWfB : List TagNode → Bool
  | [] => true
  | t :: rest => wfTreeB t && allWfB rest

def rootNamesNodupB : List TagNode → Bool
  | [] => true
  | t :: rest => !(rest.map TagNode.name).contains t.name && rootNamesNodupB rest

/-- Well-formedness of a tree state as the `Set`/`Record` structures of the
source guarantee it: root names unique (insertion is guarded by a name
scan), children keys unique at every level. -/
def wfRootB (r : TreeRoot) : Bool :=
  rootNamesNodupB r.rootTags && allWfB r.rootTags

theorem lookup_none_of_keyMem_false : ∀ (ch : Children) (k : Str),
    keyMem k ch = false → ch.lookup k = none
  | .nil, _, _ => rfl
  | .cons k0 c0 rest, k, h => by
    simp only [keyMem, Bool.or_eq_false_iff, decide_eq_false_iff_not] at h
    simp only [Children.lookup, if_neg h.1]
    exact lookup_none_of_keyMem_false rest k h.2

theorem lookup_eraseFirst_self : ∀ (ch : Children) (k : Str),
    nodupKeysB ch = true → (ch.eraseFirst k).lookup k = none
  | .nil, _, _ => rfl
  | .cons k0 c0 rest, k, h => by
    simp only [nodupKeysB, Bool.and_eq_true, Bool.not_eq_true'] at h
    by_cases hk : k0 = k
    · simp only [Children.eraseFirst, if_pos hk]
      exact lookup_none_of_keyMem_false rest k (hk ▸ h.1)
    · simp only [Children.eraseFirst, if_neg hk, Children.lookup, if_neg hk]
      exact lookup_eraseFirst_self rest k h.2

theorem lookup_replaceFirst_self : ∀ (ch : Children) (k : Str) (c c' : TagNode),
    ch.lookup k = some c → (ch.replaceFirst k c').lookup k = some c'
  | .nil, _, _, _, h => by simp [Children.lookup] at h
  | .cons k0 c0 rest, k, c, c', h => by
    by_cases hk : k0 = k
    · simp only [Children.replaceFirst, if_pos hk, Children.lookup, if_pos hk]
    · simp only [Children.lookup, if_neg hk] at h
      simp only [Children.replaceFirst, if_neg hk, Children.lookup, if_neg hk]
      exact lookup_replaceFirst_self rest k c c' h

theorem wfTreeB_of_lookup : ∀ (ch : Children) (k : Str) (c : TagNode),
    wfChildrenB ch = true → ch.lookup k = some c → wfTreeB c = true
  | .nil, _, _, _, h => by simp [Children.lookup] at h
  | .cons k0 c0 rest, k, c, hwf, h => by
    simp only [wfChildrenB, Bool.and_eq_true] at hwf
    by_cases hk : k0 = k
    · simp only [Children.lookup, if_pos hk, Option.some.injEq] at h
      exact h ▸ hwf.1
    · simp only [Children.lookup, if_neg hk] at h
      exact wfTreeB_of_lookup rest k c hwf.2 h

theorem wfChildren_of_wfTree (t : TagNode) (h : wfTreeB t = true) :
    nodupKeysB t.children = true ∧ wfChildrenB t.children = true := by
  match t with
  | .mk n p ch fl =>
    simp only [wfTreeB, Bool.and_eq_true] at h
    exact h

theorem removeAt_preserves_name_path (t : TagNode) (fs : Fs) (mids : List Str)
    (lastSeg : Str) :
    (removeAt t fs mids lastSeg).2.1.name = t.name ∧
      (removeAt t fs mids lastSeg).2.1.path = t.path := by
  match mids with
  | [] =>
    simp only [removeAt, removeChildNode]
    split
    · exact ⟨rfl, rfl⟩
    · exact ⟨rfl, rfl⟩
  | m :: ms =>
    simp only [removeAt]
    split
    · exact ⟨rfl, rfl⟩
    · exact ⟨rfl, rfl⟩

/-- Core of the orphaning contract: when the full path to the target child
resolves, `removeAt` reports success and afterwards no walk through the
removed child's key can resolve — neither to the child nor below it. -/
theorem removeAt_spec : ∀ (mids : List Str) (t : TagNode) (fs : Fs) (lastSeg : Str)
    (tgt : TagNode), wfTreeB t = true → navigate t (mids ++ [lastSeg]) = some tgt →
    (removeAt t fs mids lastSeg).1 = some true ∧
      ∀ more, navigate (removeAt t fs mids lastSeg).2.1 (mids ++ lastSeg :: more) = none
  | [], .mk n p ch fl, fs, lastSeg, tgt, hwf, hnav => by
    simp only [wfTreeB, Bool.and_eq_true] at hwf
    simp only [List.nil_append, navigate] at hnav
    match hc : TagNode.getChild (.mk n p ch fl) lastSeg with
    | none => rw [hc] at hnav; exact absurd hnav (by simp)
    | some c =>
      rw [hc] at hnav
      simp only [removeAt, removeChildNode, hc]
      refine ⟨trivial, ?_⟩
      intro more
      simp only [List.nil_append, navigate, TagNode.getChild, TagNode.children,
        TagNode.name, TagNode.path, TagNode.files]
      rw [lookup_eraseFirst_self ch lastSeg hwf.1]
  | m :: ms, .mk n p ch fl, fs, lastSeg, tgt, hwf, hnav => by
    simp only [List.cons_append, navigate] at hnav
    match hc : TagNode.getChild (.mk n p ch fl) m with
    | none => rw [hc] at hnav; exact absurd hnav (by simp)
    | some c =>
      rw [hc] at hnav
      have hwfs := hwf
      simp only [wfTreeB, Bool.and_eq_true] at hwfs
      have hwc : wfTreeB c = true := wfTreeB_of_lookup ch m c hwfs.2 hc
      have ih := removeAt_spec ms c fs lastSeg tgt hwc hnav
      simp only [removeAt, hc]
      refine ⟨ih.1, ?_⟩
      intro more
      simp only [List.cons_append, navigate, TagNode.getChild, TagNode.children,
        TagNode.name, TagNode.path, TagNode.files]
      rw [lookup_replaceFirst_self ch m c _ hc]
      exact ih.2 more

theorem findRootTag_some_name : ∀ (roots : List TagNode) (s : Str) (t : TagNode),
    findRootTag roots s = some t → t.name = s
  | [], _, _, h => by simp [findRootTag] at h
  | t0 :: rest, s, t, h => by
    by_cases hn : t0.name = s
    · simp only [findRootTag, if_pos hn, Option.some.injEq] at h
      exact h ▸ hn
    · simp only [findRootTag, if_neg hn] at h
      exact findRootTag_some_name rest s t h

theorem findRootTag_some_wf : ∀ (roots : List TagNode) (s : Str) (t : TagNode),
    allWfB roots = true → findRootTag roots s = some t → wfTreeB t = true
  | [], _, _, _, h => by simp [findRootTag] at h
  | t0 :: rest, s, t, hwf, h => by
    simp only [allWfB, Bool.and_eq_true] at hwf
    by_cases hn : t0.name = s
    · simp only [findRootTag, if_pos hn, Option.some.injEq] at h
      exact h ▸ hwf.1
    · simp only [findRootTag, if_neg hn] at h
      exact findRootTag_some_wf rest s t hwf.2 h

theorem findRootTag_none_of_not_mem : ∀ (roots : List TagNode) (s : Str),
    (roots.map TagNode.name).contains s = false → findRootTag roots s = none
  | [], _, _ => rfl
  | t0 :: rest, s, h => by
    simp only [List.map_cons, List.contains_cons, Bool.or_eq_false_iff] at h
    have hn : t0.name ≠ s := by
      intro he; rw [he] at h; simp at h
    simp only [findRootTag, if_neg hn]
    exact findRootTag_none_of_not_mem rest s h.2

theorem findRootTag_erase_self : ∀ (roots : List TagNode) (s : Str),
    rootNamesNodupB roots = true → findRootTag (eraseRootTag roots s) s = none
  | [], _, _ => rfl
  | t0 :: rest, s, h => by
    simp only [rootNamesNodupB, Bool.and_eq_true, Bool.not_eq_true'] at h
    by_cases hn : t0.name = s
    · simp only [eraseRootTag, if_pos hn]
      exact findRootTag_none_of_not_mem rest s (hn ▸ h.1)
    · simp only [eraseRootTag, if_neg hn, findRootTag, if_neg hn]
      exact findRootTag_erase_self rest s h.2

theorem findRootTag_replace_self : ∀ (roots : List TagNode) (s : Str) (t t' : TagNode),
    findRootTag roots s = some t → t'.name = s →
    findRootTag (replaceRootTag roots s t') s = some t'
  | [], _, _, _, h, _ => by simp [findRootTag] at h
  | t0 :: rest, s, t, t', h, hn' => by
    by_cases hn : t0.name = s
    · simp only [replaceRootTag, if_pos hn, findRootTag, if_pos hn']
    · simp only [findRootTag, if_neg hn] at h
      simp only [replaceRootTag, if_neg hn, findRootTag, if_neg hn]
      exact findRootTag_replace_self rest s t t' h hn'

theorem splitLastSeg_spec : ∀ (x : Str) (xs : List Str),
    (splitLastSeg (x :: xs)).1 ++ [(splitLastSeg (x :: xs)).2] = x :: xs := by
  intro x xs
  induction xs generalizing x with
  | nil => rfl
  | cons y ys ih =>
    simp only [splitLastSeg, List.cons_append, List.cons.injEq, true_and]
    exact ih y

theorem splitOnChar_ne_nil (sep : Char) (s : Str) : splitOnChar sep s ≠ [] := by
  cases s with
  | nil => simp [splitOnChar]
  | cons c rest =>
    simp only [splitOnChar]
    cases h : splitOnChar sep rest with
    | nil => simp
    | cons hh tt => by_cases hc : c = sep <;> simp [hc]

theorem splitOnChar_append (sep : Char) (a b : Str) :
    splitOnChar sep (a ++ sep :: b) = splitOnChar sep a ++ splitOnChar sep b := by
  induction a with
  | nil =>
    simp only [List.nil_append, splitOnChar]
    match h : splitOnChar sep b with
    | [] => exact absurd h (splitOnChar_ne_nil sep b)
    | hh :: tt => simp
  | cons c a' ih =>
    simp only [List.cons_append, splitOnChar, ih]
    cases h : splitOnChar sep a' with
    | nil => exact absurd h (splitOnChar_ne_nil sep a')
    | cons hh tt =>
      by_cases hc : c = sep
      · simp only [List.append_eq]; rw [ih, h]; simp [hc]
      · simp only [List.append_eq]; rw [ih, h]; simp [hc]

theorem splitSegs_append (a b : Str) :
    splitSegs (a ++ '/' :: b) = splitSegs a ++ splitSegs b := by
  unfold splitSegs
  rw [splitOnChar_append, List.filter_append]

theorem dropWhile_ne_nil_of_mem {p : Char → Bool} {l : Str} {c : Char}
    (hm : c ∈ l) (hp : p c = false) : l.dropWhile p ≠ [] := by
  induction l with
  | nil => exact absurd hm (by simp)
  | cons a t ih =>
    simp only [List.dropWhile_cons]
    rcases List.mem_cons.mp hm with rfl | hm'
    · rw [hp]; simp
    · split
      · exact ih hm'
      · simp

theorem mem_dropWhile_of_neg {p : Char → Bool} {c : Char} (hp : p c = false) :
    ∀ {l : Str}, c ∈ l → c ∈ l.dropWhile p := by
  intro l
  induction l with
  | nil => intro hm; exact absurd hm (by simp)
  | cons a t ih =>
    intro hm
    simp only [List.dropWhile_cons]
    rcases List.mem_cons.mp hm with rfl | hm'
    · rw [hp]; simp
    · split
      · exact ih hm'
      · simp [hm']

theorem jsTrim_ne_nil_of_mem {s : Str} {c : Char} (hm : c ∈ s)
    (hp : isJsSpace c = false) : jsTrim s ≠ [] := by
  unfold jsTrim
  have h3 : c ∈ ((s.dropWhile isJsSpace).reverse).dropWhile isJsSpace :=
    mem_dropWhile_of_neg hp (List.mem_reverse.mpr (mem_dropWhile_of_neg hp hm))
  intro h
  rw [List.reverse_eq_nil_iff] at h
  rw [h] at h3
  exact absurd h3 (by simp)

theorem getNodeRoots_missing_of_find_none (roots : List TagNode) (p s : Str)
    (rest : List Str) (htrim : jsTrim p ≠ []) (hsegs : splitSegs p = s :: rest)
    (hfr : findRootTag roots s = none) : getNodeRoots roots p = .missing := by
  unfold getNodeRoots
  rw [if_neg htrim, hsegs]
  simp only [hfr]

theorem getNodeRoots_missing_of_navigate_none (roots : List TagNode) (p s : Str)
    (rest : List Str) (t : TagNode) (htrim : jsTrim p ≠ [])
    (hsegs : splitSegs p = s :: rest) (hfr : findRootTag roots s = some t)
    (hnav : navigate t rest = none) : getNodeRoots roots p = .missing := by
  unfold getNodeRoots
  rw [if_neg htrim, hsegs]
  simp only [hfr, hnav]

/-- **C6.** Orphaning contract of `delChildNode`: whenever `getNode`
resolves `p` to a node, `delChildNode p` succeeds, removes that node (from
its parent's children map, or from the root tag set for a single-segment
path), and afterwards `getNode` returns null on `p` and on every descendant
path of `p` — descendants are unreachable, never reparented. -/
theorem C6_delChildNode_orphans (r : TreeRoot) (fs : Fs) (p : Str) (tgt : TagNode)
    (hwf : wfRootB r = true) (hres : getNode r p = .found tgt) :
    (delChildNode r fs p).1 = some true ∧
    getNode (delChildNode r fs p).2.1 p = .missing ∧
    ∀ suffix, getNode (delChildNode r fs p).2.1 (p ++ '/' :: suffix) = .missing := by
  have hwf' := hwf
  unfold wfRootB at hwf'
  rw [Bool.and_eq_true] at hwf'
  obtain ⟨hnodup, hallwf⟩ := hwf'
  have htrim : jsTrim p ≠ [] := by
    intro h
    unfold getNode getNodeRoots at hres
    rw [if_pos h] at hres
    simp at hres
  have htrim2 : ∀ suffix : Str, jsTrim (p ++ '/' :: suffix) ≠ [] := by
    intro suffix
    exact jsTrim_ne_nil_of_mem (c := '/') (by simp) (by decide)
  cases hsegs : splitSegs p with
  | nil =>
    unfold getNode getNodeRoots at hres
    rw [if_neg htrim, hsegs] at hres
    simp at hres
  | cons s rest =>
    unfold getNode getNodeRoots at hres
    rw [if_neg htrim, hsegs] at hres
    cases hfr : findRootTag r.rootTags s with
    | none => simp only [hfr] at hres; exact absurd hres (by simp)
    | some t =>
      simp only [hfr] at hres
      cases hnav : navigate t rest with
      | none => simp only [hnav] at hres; exact absurd hres (by simp)
      | some x =>
        cases rest with
        | nil =>
          have hdel : delChildNode r fs p =
              (some true, { r with rootTags := eraseRootTag r.rootTags s }, fs) := by
            unfold delChildNode
            rw [if_neg htrim, hsegs]
            simp only [hfr]
          refine ⟨by rw [hdel], ?_, ?_⟩
          · rw [hdel]
            show getNodeRoots (eraseRootTag r.rootTags s) p = .missing
            exact getNodeRoots_missing_of_find_none _ p s [] htrim hsegs
              (findRootTag_erase_self r.rootTags s hnodup)
          · intro suffix
            rw [hdel]
            show getNodeRoots (eraseRootTag r.rootTags s) (p ++ '/' :: suffix) = .missing
            exact getNodeRoots_missing_of_find_none _ _ s (splitSegs suffix)
              (htrim2 suffix) (by rw [splitSegs_append, hsegs]; rfl)
              (findRootTag_erase_self r.rootTags s hnodup)
        | cons s2 rest' =>
          have hml := splitLastSeg_spec s2 rest'
          have hwft : wfTreeB t = true := findRootTag_some_wf _ s t hallwf hfr
          have hnav' : navigate t ((splitLastSeg (s2 :: rest')).1 ++
              [(splitLastSeg (s2 :: rest')).2]) = some x := by
            rw [hml]; exact hnav
          have hspec := removeAt_spec (splitLastSeg (s2 :: rest')).1 t fs
            (splitLastSeg (s2 :: rest')).2 x hwft hnav'
          have hn1 := removeAt_preserves_name_path t fs (splitLastSeg (s2 :: rest')).1
            (splitLastSeg (s2 :: rest')).2
          have hname : (removeAt t fs (splitLastSeg (s2 :: rest')).1
              (splitLastSeg (s2 :: rest')).2).2.1.name = s :=
            hn1.1.trans (findRootTag_some_name r.rootTags s t hfr)
          have hfr' := findRootTag_replace_self r.rootTags s t _ hfr hname
          have hdel : delChildNode r fs p =
              ((removeAt t fs (splitLastSeg (s2 :: rest')).1
                  (splitLastSeg (s2 :: rest')).2).1,
                ⟨replaceRootTag r.rootTags s
                    (removeAt t fs (splitLastSeg (s2 :: rest')).1
                      (splitLastSeg (s2 :: rest')).2).2.1,
                  r.untaggedFiles, r.excludedFolders, r.treeVersion⟩,
                (removeAt t fs (splitLastSeg (s2 :: rest')).1
                  (splitLastSeg (s2 :: rest')).2).2.2) := by
            unfold delChildNode
            rw [if_neg htrim, hsegs]
            simp only [hfr]
          have hnone : ∀ more, navigate (removeAt t fs (splitLastSeg (s2 :: rest')).1
              (splitLastSeg (s2 :: rest')).2).2.1 (s2 :: rest' ++ more) = none := by
            intro more
            have h0 := hspec.2 more
            rw [show (splitLastSeg (s2 :: rest')).1 ++
                  (splitLastSeg (s2 :: rest')).2 :: more
                = ((splitLastSeg (s2 :: rest')).1 ++ [(splitLastSeg (s2 :: rest')).2]) ++
                  more by rw [List.append_assoc]; rfl, hml] at h0
            exact h0
          refine ⟨by rw [hdel]; exact hspec.1, ?_, ?_⟩
          · rw [hdel]
            show getNodeRoots _ p = .missing
            refine getNodeRoots_missing_of_navigate_none _ p s (s2 :: rest') _
              htrim hsegs hfr' ?_
            simpa using hnone []
          · intro suffix
            rw [hdel]
            show getNodeRoots _ (p ++ '/' :: suffix) = .missing
            refine getNodeRoots_missing_of_navigate_none _ _ s
              (s2 :: rest' ++ splitSegs suffix) _ (htrim2 suffix)
              (by rw [splitSegs_append, hsegs]; rfl) hfr' ?_
            exact hnone (splitSegs suffix)

/-- Witness: the orphaning contract applied to a concrete tree — deleting
`a/b` (which has child `c`) succeeds, and both `a/b` and its descendant
`a/b/c` resolve to null afterwards. -/
theorem C6_delChildNode_orphans_witness :
    (delChildNode ⟨[.mk "a".data "a".data (.cons "b".data (.mk "b".data "a/b".data
        (.cons "c".data (.mk "c".data "a/b/c".data .nil []) .nil) []) .nil) []],
      [], [], 0⟩ [] "a/b".data).1 = some true ∧
    getNode (delChildNode ⟨[.mk "a".data "a".data (.cons "b".data (.mk "b".data "a/b".data
        (.cons "c".data (.mk "c".data "a/b/c".data .nil []) .nil) []) .nil) []],
      [], [], 0⟩ [] "a/b".data).2.1 "a/b".data = .missing ∧
    getNode (delChildNode ⟨[.mk "a".data "a".data (.cons "b".data (.mk "b".data "a/b".data
        (.cons "c".data (.mk "c".data "a/b/c".data .nil []) .nil) []) .nil) []],
      [], [], 0⟩ [] "a/b".data).2.1 ("a/b".data ++ '/' :: "c".data) = .missing := by
  have h := C6_delChildNode_orphans
    ⟨[.mk "a".data "a".data (.cons "b".data (.mk "b".data "a/b".data
        (.cons "c".data (.mk "c".data "a/b/c".data .nil []) .nil) []) .nil) []],
      [], [], 0⟩ [] "a/b".data
    (.mk "b".data "a/b".data (.cons "c".data (.mk "c".data "a/b/c".data .nil []) .nil) [])
    rfl rfl
  exact ⟨h.1, h.2.1, h.2.2 "c".data⟩

-- ==================== sidecar coverage through recompute ====================

mutual
/-- All node paths in a subtree. -/
def nodePaths : TagNode → List Str
  | .mk _ p ch _ => p :: childrenPaths ch
def childrenPaths : Children → List Str
  | .nil => []
  | .cons _ c rest => nodePaths c ++ childrenPaths rest
end

/-- All node paths in a forest. -/
def rootsPaths : List TagNode → List Str
  | [] => []
  | t :: rest => nodePaths t ++ rootsPaths rest

/-- The metadata directory only ever grows during tree computation. -/
def fsKeeps (fs fs' : Fs) : Prop := ∀ f, fsHas fs f = true → fsHas fs' f = true

/-- Every path in the list whose sidecar filename is encodable has its
sidecar present in the metadata directory. -/
def pathsCovered (ps : List Str) (fs : Fs) : Prop :=
  ∀ p ∈ ps, ∀ f, getMetadataFilePath p = some f → fsHas fs f = true

theorem fsKeeps_refl (fs : Fs) : fsKeeps fs fs := fun _ h => h

theorem fsKeeps_trans {a b c : Fs} (h1 : fsKeeps a b) (h2 : fsKeeps b c) : fsKeeps a c :=
  fun f h => h2 f (h1 f h)

theorem pathsCovered_mono {ps : List Str} {fs fs' : Fs} (hk : fsKeeps fs fs')
    (hc : pathsCovered ps fs) : pathsCovered ps fs' :=
  fun p hp f hf => hk f (hc p hp f hf)

theorem pathsCovered_append {ps qs : List Str} {fs : Fs} (h1 : pathsCovered ps fs)
    (h2 : pathsCovered qs fs) : pathsCovered (ps ++ qs) fs := by
  intro p hp f hf
  rcases List.mem_append.mp hp with h | h
  · exact h1 p h f hf
  · exact h2 p h f hf

theorem fsHas_write_keep : ∀ (fs : Fs) (n : Str) (d : FData) (f : Str),
    fsHas fs f = true → fsHas (fsWrite fs n d) f = true
  | [], n, d, f, h => by simp [fsHas, fsLookup] at h
  | (n0, d0) :: rest, n, d, f, h => by
    simp only [fsHas, fsLookup] at h
    by_cases he : n0 = n
    · simp only [fsWrite, if_pos he, fsHas, fsLookup]
      by_cases hf : n0 = f
      · simp [hf]
      · rw [if_neg hf] at h ⊢; exact h
    · simp only [fsWrite, if_neg he, fsHas, fsLookup]
      by_cases hf : n0 = f
      · simp [hf]
      · rw [if_neg hf] at h ⊢
        exact fsHas_write_keep rest n d f h

theorem fsHas_write_self : ∀ (fs : Fs) (n : Str) (d : FData),
    fsHas (fsWrite fs n d) n = true
  | [], n, d => by simp [fsWrite, fsHas, fsLookup]
  | (n0, d0) :: rest, n, d => by
    by_cases he : n0 = n
    · simp [fsWrite, if_pos he, fsHas, fsLookup, he]
    · simp only [fsWrite, if_neg he, fsHas, fsLookup, if_neg he]
      exact fsHas_write_self rest n d

theorem createNewMeta_keeps (fs : Fs) (name path now : Str) :
    fsKeeps fs (createNewMeta fs name path now).2 := by
  unfold createNewMeta
  match getMetadataFilePath path with
  | none => exact fsKeeps_refl fs
  | some f =>
    by_cases h : fsHas fs f = true
    · simp only [if_pos h]; exact fsKeeps_refl fs
    · simp only [h, if_false]
      intro g hg
      exact fsHas_write_keep fs f _ g hg

theorem createNewMeta_covers (fs : Fs) (name path now : Str) (f : Str)
    (hf : getMetadataFilePath path = some f) :
    fsHas (createNewMeta fs name path now).2 f = true := by
  unfold createNewMeta
  rw [hf]
  by_cases h : fsHas fs f = true
  · simp only [if_pos h]; exact h
  · simp only [h, if_false]
    exact fsHas_write_self fs f _

theorem mkTagNode_keeps (name path : Str) (fs : Fs) (now : Str) :
    fsKeeps fs (mkTagNode name path fs now).2 :=
  createNewMeta_keeps fs name path now

theorem mkTagNode_covered (name path : Str) (fs : Fs) (now : Str) :
    pathsCovered (nodePaths (mkTagNode name path fs now).1) (mkTagNode name path fs now).2 := by
  intro p hp f hf
  simp only [mkTagNode, nodePaths, childrenPaths] at hp
  rcases List.mem_cons.mp hp with rfl | h
  · exact createNewMeta_covers fs name p now f hf
  · exact absurd h (by simp)

theorem childrenPaths_replaceFirst_subset : ∀ (ch : Children) (k : Str) (c' : TagNode)
    (p : Str), p ∈ childrenPaths (ch.replaceFirst k c') →
    p ∈ childrenPaths ch ∨ p ∈ nodePaths c'
  | .nil, _, _, p, h => by simp [Children.replaceFirst, childrenPaths] at h
  | .cons k0 c0 rest, k, c', p, h => by
    by_cases hk : k0 = k
    · simp only [Children.replaceFirst, if_pos hk, childrenPaths] at h
      rcases List.mem_append.mp h with h1 | h1
      · exact Or.inr h1
      · exact Or.inl (by simp only [childrenPaths]; exact List.mem_append.mpr (Or.inr h1))
    · simp only [Children.replaceFirst, if_neg hk, childrenPaths] at h
      rcases List.mem_append.mp h with h1 | h1
      · exact Or.inl (by simp only [childrenPaths]; exact List.mem_append.mpr (Or.inl h1))
      · rcases childrenPaths_replaceFirst_subset rest k c' p h1 with h2 | h2
        · exact Or.inl (by simp only [childrenPaths]; exact List.mem_append.mpr (Or.inr h2))
        · exact Or.inr h2

theorem childrenPaths_append1 : ∀ (ch : Children) (k : Str) (c : TagNode),
    childrenPaths (ch.append1 k c) = childrenPaths ch ++ nodePaths c
  | .nil, k, c => by simp [Children.append1, childrenPaths]
  | .cons k0 c0 rest, k, c => by
    simp only [Children.append1, childrenPaths, childrenPaths_append1 rest k c,
      List.append_assoc]

theorem lookup_paths_subset : ∀ (ch : Children) (k : Str) (c : TagNode),
    ch.lookup k = some c → ∀ p ∈ nodePaths c, p ∈ childrenPaths ch
  | .nil, _, _, h => by simp [Children.lookup] at h
  | .cons k0 c0 rest, k, c, h => by
    by_cases hk : k0 = k
    · simp only [Children.lookup, if_pos hk, Option.some.injEq] at h
      intro p hp
      simp only [childrenPaths]
      exact List.mem_append.mpr (Or.inl (h ▸ hp))
    · simp only [Children.lookup, if_neg hk] at h
      intro p hp
      simp only [childrenPaths]
      exact List.mem_append.mpr (Or.inr (lookup_paths_subset rest k c h p hp))

theorem createNewFile_paths (t : TagNode) (v : List Str) (n p : Str) :
    nodePaths (createNewFile t v n p).2 = nodePaths t := by
  unfold createNewFile
  split
  · rfl
  · split
    · rfl
    · split
      · match t with
        | .mk n0 p0 ch fl => rfl
      · rfl

theorem addChildNode_inv (t : TagNode) (fs : Fs) (now seg : Str)
    (hc : pathsCovered (nodePaths t) fs) :
    pathsCovered (nodePaths (addChildNode t fs now seg).2.1)
        (addChildNode t fs now seg).2.2 ∧
      fsKeeps fs (addChildNode t fs now seg).2.2 := by
  match t with
  | .mk n0 p0 ch fl =>
    unfold addChildNode
    split
    · exact ⟨hc, fsKeeps_refl fs⟩
    · split
      · exact ⟨hc, fsKeeps_refl fs⟩
      · refine ⟨?_, mkTagNode_keeps _ _ fs now⟩
        intro p hp f hf
        simp only [TagNode.name, TagNode.path, TagNode.children, TagNode.files,
          nodePaths, childrenPaths_append1] at hp
        rcases List.mem_cons.mp hp with rfl | hp1
        · exact mkTagNode_keeps _ _ fs now f (hc p (by simp [nodePaths]) f hf)
        · rcases List.mem_append.mp hp1 with h2 | h2
          · refine mkTagNode_keeps _ _ fs now f (hc p ?_ f hf)
            simp only [nodePaths]
            exact List.mem_cons.mpr (Or.inr h2)
          · exact mkTagNode_covered _ _ fs now p h2 f hf

theorem walkCreate_inv : ∀ (segs : List Str) (t : TagNode) (fn fp : Str) (v : List Str)
    (fs : Fs) (now : Str), pathsCovered (nodePaths t) fs →
    pathsCovered (nodePaths (walkCreate t segs fn fp v fs now).1)
        (walkCreate t segs fn fp v fs now).2 ∧
      fsKeeps fs (walkCreate t segs fn fp v fs now).2
  | [], t, fn, fp, v, fs, now, hc => by
    simp only [walkCreate, createNewFile_paths]
    exact ⟨hc, fsKeeps_refl fs⟩
  | seg :: rest, t, fn, fp, v, fs, now, hc => by
    simp only [walkCreate]
    match hch : t.getChild seg with
    | some c =>
      have hcc : pathsCovered (nodePaths c) fs := by
        intro p hp f hf
        match t with
        | .mk n0 p0 ch fl =>
          refine hc p ?_ f hf
          simp only [nodePaths]
          exact List.mem_cons.mpr (Or.inr (lookup_paths_subset ch seg c hch p hp))
      have ih := walkCreate_inv rest c fn fp v fs now hcc
      refine ⟨?_, ih.2⟩
      intro p hp f hf
      match t with
      | .mk n0 p0 ch fl =>
        simp only [TagNode.name, TagNode.path, TagNode.children, TagNode.files,
          nodePaths] at hp
        rcases List.mem_cons.mp hp with rfl | hp1
        · exact ih.2 f (hc p (by simp [nodePaths]) f hf)
        · rcases childrenPaths_replaceFirst_subset ch seg _ p hp1 with h2 | h2
          · refine ih.2 f (hc p ?_ f hf)
            simp only [nodePaths]
            exact List.mem_cons.mpr (Or.inr h2)
          · exact ih.1 p h2 f hf
    | none =>
      have ha := addChildNode_inv t fs now seg hc
      match hch2 : (addChildNode t fs now seg).2.1.getChild seg with
      | some c =>
        have hcc : pathsCovered (nodePaths c) (addChildNode t fs now seg).2.2 := by
          intro p hp f hf
          match hmk : (addChildNode t fs now seg).2.1 with
          | .mk n1 p1 ch1 fl1 =>
            refine ha.1 p ?_ f hf
            rw [hmk]
            simp only [nodePaths]
            rw [hmk] at hch2
            exact List.mem_cons.mpr (Or.inr (lookup_paths_subset ch1 seg c hch2 p hp))
        have ih := walkCreate_inv rest c fn fp v (addChildNode t fs now seg).2.2 now hcc
        refine ⟨?_, fsKeeps_trans ha.2 ih.2⟩
        intro p hp f hf
        match hmk : (addChildNode t fs now seg).2.1 with
        | .mk n1 p1 ch1 fl1 =>
          rw [hmk] at hp
          simp only [TagNode.name, TagNode.path, TagNode.children, TagNode.files,
            nodePaths] at hp
          rcases List.mem_cons.mp hp with rfl | hp1
          · exact ih.2 f (ha.1 p (by rw [hmk]; simp [nodePaths]) f hf)
          · rcases childrenPaths_replaceFirst_subset ch1 seg _ p hp1 with h2 | h2
            · refine ih.2 f (ha.1 p ?_ f hf)
              rw [hmk]
              simp only [nodePaths]
              exact List.mem_cons.mpr (Or.inr h2)
            · exact ih.1 p h2 f hf
      | none => exact ha

theorem walkCreateOnly_preserves_name_path (t : TagNode) (segs : List Str)
    (fs : Fs) (now : Str) :
    (walkCreateOnly t segs fs now).1.name = t.name ∧
      (walkCreateOnly t segs fs now).1.path = t.path := by
  match segs with
  | [] => exact ⟨rfl, rfl⟩
  | seg :: rest =>
    simp only [walkCreateOnly]
    split
    · exact ⟨rfl, rfl⟩
    · split
      · exact ⟨(addChildNode_preserves_name_path t fs now seg).1,
          (addChildNode_preserves_name_path t fs now seg).2⟩
      · exact addChildNode_preserves_name_path t fs now seg

theorem walkCreateOnly_inv : ∀ (segs : List Str) (t : TagNode) (fs : Fs) (now : Str),
    pathsCovered (nodePaths t) fs →
    pathsCovered (nodePaths (walkCreateOnly t segs fs now).1)
        (walkCreateOnly t segs fs now).2 ∧
      fsKeeps fs (walkCreateOnly t segs fs now).2
  | [], t, fs, now, hc => ⟨hc, fsKeeps_refl fs⟩
  | seg :: rest, t, fs, now, hc => by
    simp only [walkCreateOnly]
    match hch : t.getChild seg with
    | some c =>
      have hcc : pathsCovered (nodePaths c) fs := by
        intro p hp f hf
        match t with
        | .mk n0 p0 ch fl =>
          refine hc p ?_ f hf
          simp only [nodePaths]
          exact List.mem_cons.mpr (Or.inr (lookup_paths_subset ch seg c hch p hp))
      have ih := walkCreateOnly_inv rest c fs now hcc
      refine ⟨?_, ih.2⟩
      intro p hp f hf
      match t with
      | .mk n0 p0 ch fl =>
        simp only [TagNode.name, TagNode.path, TagNode.children, TagNode.files,
          nodePaths] at hp
        rcases List.mem_cons.mp hp with rfl | hp1
        · exact ih.2 f (hc p (by simp [nodePaths]) f hf)
        · rcases childrenPaths_replaceFirst_subset ch seg _ p hp1 with h2 | h2
          · refine ih.2 f (hc p ?_ f hf)
            simp only [nodePaths]
            exact List.mem_cons.mpr (Or.inr h2)
          · exact ih.1 p h2 f hf
    | none =>
      have ha := addChildNode_inv t fs now seg hc
      match hch2 : (addChildNode t fs now seg).2.1.getChild seg with
      | some c =>
        have hcc : pathsCovered (nodePaths c) (addChildNode t fs now seg).2.2 := by
          intro p hp f hf
          match hmk : (addChildNode t fs now seg).2.1 with
          | .mk n1 p1 ch1 fl1 =>
            refine ha.1 p ?_ f hf
            rw [hmk]
            simp only [nodePaths]
            rw [hmk] at hch2
            exact List.mem_cons.mpr (Or.inr (lookup_paths_subset ch1 seg c hch2 p hp))
        have ih := walkCreateOnly_inv rest c (addChildNode t fs now seg).2.2 now hcc
        refine ⟨?_, fsKeeps_trans ha.2 ih.2⟩
        intro p hp f hf
        match hmk : (addChildNode t fs now seg).2.1 with
        | .mk n1 p1 ch1 fl1 =>
          rw [hmk] at hp
          simp only [TagNode.name, TagNode.path, TagNode.children, TagNode.files,
            nodePaths] at hp
          rcases List.mem_cons.mp hp with rfl | hp1
          · exact ih.2 f (ha.1 p (by rw [hmk]; simp [nodePaths]) f hf)
          · rcases childrenPaths_replaceFirst_subset ch1 seg _ p hp1 with h2 | h2
            · refine ih.2 f (ha.1 p ?_ f hf)
              rw [hmk]
              simp only [nodePaths]
              exact List.mem_cons.mpr (Or.inr h2)
            · exact ih.1 p h2 f hf
      | none => exact ha

theorem rootsPaths_append : ∀ (roots l : List TagNode),
    rootsPaths (roots ++ l) = rootsPaths roots ++ rootsPaths l
  | [], l => rfl
  | t :: rest, l => by
    simp only [List.cons_append, rootsPaths, List.append_eq,
      rootsPaths_append rest l, List.append_assoc]

theorem rootsPaths_replace_subset : ∀ (roots : List TagNode) (s : Str) (y : TagNode)
    (p : Str), p ∈ rootsPaths (replaceRootTag roots s y) →
    p ∈ rootsPaths roots ∨ p ∈ nodePaths y
  | [], _, _, p, h => by simp [replaceRootTag, rootsPaths] at h
  | t :: rest, s, y, p, h => by
    by_cases hn : t.name = s
    · simp only [replaceRootTag, if_pos hn, rootsPaths] at h
      rcases List.mem_append.mp h with h1 | h1
      · exact Or.inr h1
      · exact Or.inl (by simp only [rootsPaths]; exact List.mem_append.mpr (Or.inr h1))
    · simp only [replaceRootTag, if_neg hn, rootsPaths] at h
      rcases List.mem_append.mp h with h1 | h1
      · exact Or.inl (by simp only [rootsPaths]; exact List.mem_append.mpr (Or.inl h1))
      · rcases rootsPaths_replace_subset rest s y p h1 with h2 | h2
        · exact Or.inl (by simp only [rootsPaths]; exact List.mem_append.mpr (Or.inr h2))
        · exact Or.inr h2

theorem findRootTag_paths_subset : ∀ (roots : List TagNode) (s : Str) (t : TagNode),
    findRootTag roots s = some t → ∀ p ∈ nodePaths t, p ∈ rootsPaths roots
  | [], _, _, h => by simp [findRootTag] at h
  | t0 :: rest, s, t, h => by
    by_cases hn : t0.name = s
    · simp only [findRootTag, if_pos hn, Option.some.injEq] at h
      intro p hp
      simp only [rootsPaths]
      exact List.mem_append.mpr (Or.inl (h ▸ hp))
    · simp only [findRootTag, if_neg hn] at h
      intro p hp
      simp only [rootsPaths]
      exact List.mem_append.mpr (Or.inr (findRootTag_paths_subset rest s t h p hp))

theorem addFileToTagPath_inv (roots : List TagNode) (leaf : FileLeaf) (tagPath : Str)
    (v : List Str) (fs : Fs) (now : Str)
    (hc : pathsCovered (rootsPaths roots) fs) :
    pathsCovered (rootsPaths (addFileToTagPath roots leaf tagPath v fs now).1)
        (addFileToTagPath roots leaf tagPath v fs now).2 ∧
      fsKeeps fs (addFileToTagPath roots leaf tagPath v fs now).2 := by
  cases hsp : splitSegs tagPath with
  | nil =>
    have heq : addFileToTagPath roots leaf tagPath v fs now = (roots, fs) := by
      unfold addFileToTagPath
      rw [hsp]
    rw [heq]
    exact ⟨hc, fsKeeps_refl fs⟩
  | cons s rest =>
    cases hfr : findRootTag roots s with
    | some t =>
      have heq : addFileToTagPath roots leaf tagPath v fs now =
          (replaceRootTag roots s (walkCreate t rest leaf.name leaf.path v fs now).1,
            (walkCreate t rest leaf.name leaf.path v fs now).2) := by
        unfold addFileToTagPath
        rw [hsp]
        simp only [hfr]
      rw [heq]
      have hct : pathsCovered (nodePaths t) fs :=
        fun p hp f hf => hc p (findRootTag_paths_subset roots s t hfr p hp) f hf
      have hw := walkCreate_inv rest t leaf.name leaf.path v fs now hct
      refine ⟨?_, hw.2⟩
      intro p hp f hf
      rcases rootsPaths_replace_subset roots s _ p hp with h1 | h1
      · exact hw.2 f (hc p h1 f hf)
      · exact hw.1 p h1 f hf
    | none =>
      have heq : addFileToTagPath roots leaf tagPath v fs now =
          (replaceRootTag (roots ++ [(mkTagNode s s fs now).1]) s
              (walkCreate (mkTagNode s s fs now).1 rest leaf.name leaf.path v
                (mkTagNode s s fs now).2 now).1,
            (walkCreate (mkTagNode s s fs now).1 rest leaf.name leaf.path v
              (mkTagNode s s fs now).2 now).2) := by
        unfold addFileToTagPath
        rw [hsp]
        simp only [hfr]
      rw [heq]
      have hm := mkTagNode_covered s s fs now
      have hmk := mkTagNode_keeps s s fs now
      have hw := walkCreate_inv rest (mkTagNode s s fs now).1 leaf.name leaf.path v
        (mkTagNode s s fs now).2 now hm
      refine ⟨?_, fsKeeps_trans hmk hw.2⟩
      intro p hp f hf
      rcases rootsPaths_replace_subset _ s _ p hp with h1 | h1
      · rw [rootsPaths_append] at h1
        rcases List.mem_append.mp h1 with h2 | h2
        · exact hw.2 f (hmk f (hc p h2 f hf))
        · refine hw.2 f (hm p ?_ f hf)
          simpa [rootsPaths] using h2
      · exact hw.1 p h1 f hf

theorem createTagNodeHierarchy_inv (roots : List TagNode) (tagPath : Str)
    (fs : Fs) (now : Str) (hc : pathsCovered (rootsPaths roots) fs) :
    pathsCovered (rootsPaths (createTagNodeHierarchy roots tagPath fs now).1)
        (createTagNodeHierarchy roots tagPath fs now).2 ∧
      fsKeeps fs (createTagNodeHierarchy roots tagPath fs now).2 := by
  cases hsp : splitSegs tagPath with
  | nil =>
    have heq : createTagNodeHierarchy roots tagPath fs now = (roots, fs) := by
      unfold createTagNodeHierarchy
      rw [hsp]
    rw [heq]
    exact ⟨hc, fsKeeps_refl fs⟩
  | cons s rest =>
    cases hfr : findRootTag roots s with
    | some t =>
      have heq : createTagNodeHierarchy roots tagPath fs now =
          (replaceRootTag roots s (walkCreateOnly t rest fs now).1,
            (walkCreateOnly t rest fs now).2) := by
        unfold createTagNodeHierarchy
        rw [hsp]
        simp only [hfr]
      rw [heq]
      have hct : pathsCovered (nodePaths t) fs :=
        fun p hp f hf => hc p (findRootTag_paths_subset roots s t hfr p hp) f hf
      have hw := walkCreateOnly_inv rest t fs now hct
      refine ⟨?_, hw.2⟩
      intro p hp f hf
      rcases rootsPaths_replace_subset roots s _ p hp with h1 | h1
      · exact hw.2 f (hc p h1 f hf)
      · exact hw.1 p h1 f hf
    | none =>
      have heq : createTagNodeHierarchy roots tagPath fs now =
          (replaceRootTag (roots ++ [(mkTagNode s s fs now).1]) s
              (walkCreateOnly (mkTagNode s s fs now).1 rest
                (mkTagNode s s fs now).2 now).1,
            (walkCreateOnly (mkTagNode s s fs now).1 rest
              (mkTagNode s s fs now).2 now).2) := by
        unfold createTagNodeHierarchy
        rw [hsp]
        simp only [hfr]
      rw [heq]
      have hm := mkTagNode_covered s s fs now
      have hmk := mkTagNode_keeps s s fs now
      have hw := walkCreateOnly_inv rest (mkTagNode s s fs now).1
        (mkTagNode s s fs now).2 now hm
      refine ⟨?_, fsKeeps_trans hmk hw.2⟩
      intro p hp f hf
      rcases rootsPaths_replace_subset _ s _ p hp with h1 | h1
      · rw [rootsPaths_append] at h1
        rcases List.mem_append.mp h1 with h2 | h2
        · exact hw.2 f (hmk f (hc p h2 f hf))
        · refine hw.2 f (hm p ?_ f hf)
          simpa [rootsPaths] using h2
      · exact hw.1 p h1 f hf

theorem foldTags_inv : ∀ (tags : List Str) (roots : List TagNode) (fs : Fs)
    (leaf : FileLeaf) (v : List Str) (now : Str),
    pathsCovered (rootsPaths roots) fs →
    pathsCovered (rootsPaths (tags.foldl
        (fun acc tp => addFileToTagPath acc.1 leaf tp v acc.2 now) (roots, fs)).1)
      (tags.foldl (fun acc tp => addFileToTagPath acc.1 leaf tp v acc.2 now)
        (roots, fs)).2 ∧
    fsKeeps fs (tags.foldl (fun acc tp => addFileToTagPath acc.1 leaf tp v acc.2 now)
      (roots, fs)).2
  | [], roots, fs, leaf, v, now, hc => ⟨hc, fsKeeps_refl fs⟩
  | tp :: rest, roots, fs, leaf, v, now, hc => by
    simp only [List.foldl_cons]
    have h1 := addFileToTagPath_inv roots leaf tp v fs now hc
    have h2 := foldTags_inv rest (addFileToTagPath roots leaf tp v fs now).1
      (addFileToTagPath roots leaf tp v fs now).2 leaf v now h1.1
    exact ⟨h2.1, fsKeeps_trans h1.2 h2.2⟩

theorem processFile_inv (roots : List TagNode) (untagged : List FileLeaf) (fs : Fs)
    (f : VFile) (v : List Str) (now : Str)
    (hc : pathsCovered (rootsPaths roots) fs) :
    pathsCovered (rootsPaths (processFile roots untagged fs f v now).1)
        (processFile roots untagged fs f v now).2.2 ∧
      fsKeeps fs (processFile roots untagged fs f v now).2.2 := by
  unfold processFile
  split
  · split
    · exact ⟨hc, fsKeeps_refl fs⟩
    · exact foldTags_inv f.tags roots fs ⟨f.basename, f.path, []⟩ v now hc
  · exact ⟨hc, fsKeeps_refl fs⟩

theorem processAllFiles_inv : ∀ (vault : List VFile) (roots : List TagNode)
    (untagged : List FileLeaf) (fs : Fs) (v : List Str) (now : Str),
    pathsCovered (rootsPaths roots) fs →
    pathsCovered (rootsPaths (processAllFiles vault roots untagged fs v now).1)
        (processAllFiles vault roots untagged fs v now).2.2 ∧
      fsKeeps fs (processAllFiles vault roots untagged fs v now).2.2
  | [], roots, untagged, fs, v, now, hc => ⟨hc, fsKeeps_refl fs⟩
  | f :: rest, roots, untagged, fs, v, now, hc => by
    simp only [processAllFiles]
    have h1 := processFile_inv roots untagged fs f v now hc
    have h2 := processAllFiles_inv rest (processFile roots untagged fs f v now).1
      (processFile roots untagged fs f v now).2.1
      (processFile roots untagged fs f v now).2.2 v now h1.1
    exact ⟨h2.1, fsKeeps_trans h1.2 h2.2⟩

theorem populateLoop_inv : ∀ (names : List Str) (roots : List TagNode) (fs : Fs)
    (now : Str), pathsCovered (rootsPaths roots) fs →
    pathsCovered (rootsPaths (populateLoop names roots fs now).1)
        (populateLoop names roots fs now).2 ∧
      fsKeeps fs (populateLoop names roots fs now).2
  | [], roots, fs, now, hc => ⟨hc, fsKeeps_refl fs⟩
  | g :: rest, roots, fs, now, hc => by
    simp only [populateLoop]
    split
    · split
      · exact populateLoop_inv rest roots fs now hc
      · split
        · have h1 := createTagNodeHierarchy_inv roots (extractTagPathFromFilename g)
            fs now hc
          have h2 := populateLoop_inv rest
            (createTagNodeHierarchy roots (extractTagPathFromFilename g) fs now).1
            (createTagNodeHierarchy roots (extractTagPathFromFilename g) fs now).2
            now h1.1
          exact ⟨h2.1, fsKeeps_trans h1.2 h2.2⟩
        · exact populateLoop_inv rest roots fs now hc
    · exact populateLoop_inv rest roots fs now hc

/-- **C9 (counterexample).** The claim fails as stated: constructing a
`TagNode` whose path contains a character above Latin-1 (here `Ā`, U+0100)
writes no sidecar at all — `btoa` throws inside `getMetadataFilePath` and
`createNewMeta` swallows the exception, leaving the directory empty. -/
theorem C9_counterexample_non_latin1_path :
    getMetadataFilePath "Ā".data = none ∧
      (mkTagNode "Ā".data "Ā".data [] "T".data).2 = [] := by
  exact ⟨by decide, by decide⟩

/-- **C9 (amended).** Eager sidecar creation for encodable paths: every
`TagNode` construction ensures the sidecar for its path exists whenever the
path is Latin-1 (base64-encodable); consequently after any recompute, every
node in the tree with an encodable path has a persisted sidecar. -/
theorem C9_eager_sidecar_creation_latin1 :
    (∀ (name path : Str) (fs : Fs) (now : Str) (f : Str),
      getMetadataFilePath path = some f →
      fsHas (mkTagNode name path fs now).2 f = true) ∧
    (∀ (r : TreeRoot) (cfg : Str) (vault : List VFile) (fs : Fs) (now : Str),
      pathsCovered (rootsPaths (recomputeTree r cfg vault fs now).1.rootTags)
        (recomputeTree r cfg vault fs now).2) := by
  constructor
  · intro name path fs now f hf
    exact createNewMeta_covers fs name path now f hf
  · intro r cfg vault fs now
    have h1 := processAllFiles_inv vault [] [] fs (vault.map (fun f => f.path)) now
      (by intro p hp f hf; simp [rootsPaths] at hp)
    have h2 := populateLoop_inv
      ((processAllFiles vault [] [] fs (vault.map (fun f => f.path)) now).2.2.map
        (fun e => e.1))
      (processAllFiles vault [] [] fs (vault.map (fun f => f.path)) now).1
      (processAllFiles vault [] [] fs (vault.map (fun f => f.path)) now).2.2 now h1.1
    simp only [recomputeTree, populateEmptyTagFoldersFromMetadata]
    exact h2.1

/-- Witness: constructing a node at the Latin-1 path `a` leaves its sidecar
`a_YQ==.md` present. -/
theorem C9_eager_sidecar_creation_latin1_witness :
    fsHas (mkTagNode "a".data "a".data [] "T".data).2 "a_YQ==.md".data = true :=
  C9_eager_sidecar_creation_latin1.1 "a".data "a".data [] "T".data
    "a_YQ==.md".data (by decide)

-- ==================== C10: top-level deletion and sidecar restore ====================

theorem removeAt_fs : ∀ (mids : List Str) (t : TagNode) (fs : Fs) (lastSeg : Str)
    (tgt : TagNode), navigate t (mids ++ [lastSeg]) = some tgt →
    (removeAt t fs mids lastSeg).2.2 = (deleteMeta fs tgt.path).2
  | [], t, fs, lastSeg, tgt, hnav => by
    simp only [List.nil_append, navigate] at hnav
    match hc : t.getChild lastSeg with
    | none => rw [hc] at hnav; exact absurd hnav (by simp)
    | some c =>
      rw [hc] at hnav
      simp only [navigate, Option.some.injEq] at hnav
      simp only [removeAt, removeChildNode, hc, hnav]
  | m :: ms, t, fs, lastSeg, tgt, hnav => by
    simp only [List.cons_append, navigate] at hnav
    match hc : t.getChild m with
    | none => rw [hc] at hnav; exact absurd hnav (by simp)
    | some c =>
      rw [hc] at hnav
      simp only [removeAt, hc]
      exact removeAt_fs ms c fs lastSeg tgt hnav

theorem endsWithMd_append (xs : Str) : endsWithMd (xs ++ ".md".data) = true := by
  unfold endsWithMd
  rw [List.reverse_append]
  rfl

theorem getMetadataFilePath_shape (p f : Str) (h : getMetadataFilePath p = some f) :
    f = (underscorify p ++ '_' :: btoaBytes (p.map Char.toNat)) ++ ".md".data := by
  unfold getMetadataFilePath btoaStr at h
  by_cases hall : p.all (fun c => c.toNat < 256) = true
  · rw [if_pos hall] at h
    simp only [Option.map_some', Option.some.injEq] at h
    rw [← h]
    simp
  · rw [if_neg hall] at h
    simp at h

theorem fsHas_mem_keys : ∀ (fs : Fs) (f : Str), fsHas fs f = true →
    f ∈ fs.map (fun e => e.1)
  | [], f, h => by simp [fsHas, fsLookup] at h
  | (n0, d0) :: rest, f, h => by
    simp only [fsHas, fsLookup] at h
    by_cases he : n0 = f
    · simp only [List.map_cons, List.mem_cons]
      exact Or.inl he.symm
    · rw [if_neg he] at h
      simp only [List.map_cons, List.mem_cons]
      exact Or.inr (fsHas_mem_keys rest f h)

theorem splitOnChar_no_sep : ∀ (sep : Char) (s : Str), sep ∉ s →
    splitOnChar sep s = [s]
  | _, [], _ => rfl
  | sep, c :: rest, h => by
    have hc : c ≠ sep := fun he => h (he ▸ List.mem_cons_self c rest)
    have hrest : sep ∉ rest := fun hm => h (List.mem_cons.mpr (Or.inr hm))
    simp only [splitOnChar, splitOnChar_no_sep sep rest hrest, if_neg hc]

theorem splitSegs_single (name : Str) (hne : name ≠ []) (hslash : '/' ∉ name) :
    splitSegs name = [name] := by
  unfold splitSegs
  rw [splitOnChar_no_sep '/' name hslash]
  simp [hne]

theorem getNodeRoots_single_char (roots : List TagNode) (name : Str)
    (ht : jsTrim name ≠ []) (hs : splitSegs name = [name]) :
    getNodeRoots roots name =
      (match findRootTag roots name with
       | none => NodeRes.missing
       | some t => NodeRes.found t) := by
  unfold getNodeRoots
  rw [if_neg ht, hs]
  cases h : findRootTag roots name <;> simp [h, navigate]

theorem findRootTag_append_some : ∀ (roots l : List TagNode) (q : Str) (t : TagNode),
    findRootTag roots q = some t → findRootTag (roots ++ l) q = some t
  | [], _, _, _, h => by simp [findRootTag] at h
  | t0 :: rest, l, q, t, h => by
    by_cases hn : t0.name = q
    · simp only [findRootTag, if_pos hn, Option.some.injEq] at h
      subst h
      simp only [List.cons_append, findRootTag, if_pos hn]
    · simp only [findRootTag, if_neg hn] at h
      simp only [List.cons_append, findRootTag, if_neg hn]
      exact findRootTag_append_some rest l q t h

theorem findRootTag_replace_ne_none : ∀ (roots : List TagNode) (s q : Str)
    (y : TagNode), y.name = s → findRootTag roots q ≠ none →
    findRootTag (replaceRootTag roots s y) q ≠ none
  | [], _, _, _, _, h => by simp [findRootTag] at h
  | t0 :: rest, s, q, y, hy, h => by
    by_cases hn : t0.name = s
    · simp only [replaceRootTag, if_pos hn]
      by_cases hq : y.name = q
      · simp [findRootTag, hq]
      · simp only [findRootTag, if_neg hq]
        by_cases hq0 : t0.name = q
        · exact absurd (hn.symm.trans hq0) (fun he => hq (hy.trans he))
        · simp only [findRootTag, if_neg hq0] at h
          exact h
    · simp only [replaceRootTag, if_neg hn]
      by_cases hq0 : t0.name = q
      · simp [findRootTag, hq0]
      · simp only [findRootTag, if_neg hq0] at h ⊢
        exact findRootTag_replace_ne_none rest s q y hy h

theorem createTagNodeHierarchy_preserves (roots : List TagNode) (tp : Str)
    (fs : Fs) (now q : Str) (h : findRootTag roots q ≠ none) :
    findRootTag (createTagNodeHierarchy roots tp fs now).1 q ≠ none := by
  cases hsp : splitSegs tp with
  | nil =>
    have heq : createTagNodeHierarchy roots tp fs now = (roots, fs) := by
      unfold createTagNodeHierarchy
      rw [hsp]
    rw [heq]
    exact h
  | cons s rest =>
    cases hfr : findRootTag roots s with
    | some t =>
      have heq : (createTagNodeHierarchy roots tp fs now).1 =
          replaceRootTag roots s (walkCreateOnly t rest fs now).1 := by
        unfold createTagNodeHierarchy
        rw [hsp]
        simp only [hfr]
      rw [heq]
      exact findRootTag_replace_ne_none roots s q _
        ((walkCreateOnly_preserves_name_path t rest fs now).1.trans
          (findRootTag_some_name roots s t hfr)) h
    | none =>
      have heq : (createTagNodeHierarchy roots tp fs now).1 =
          replaceRootTag (roots ++ [(mkTagNode s s fs now).1]) s
            (walkCreateOnly (mkTagNode s s fs now).1 rest
              (mkTagNode s s fs now).2 now).1 := by
        unfold createTagNodeHierarchy
        rw [hsp]
        simp only [hfr]
      rw [heq]
      have hnm : (mkTagNode s s fs now).1.name = s := rfl
      refine findRootTag_replace_ne_none _ s q _
        ((walkCreateOnly_preserves_name_path (mkTagNode s s fs now).1 rest
          (mkTagNode s s fs now).2 now).1.trans hnm) ?_
      match hq : findRootTag roots q with
      | none => exact absurd hq h
      | some t => rw [findRootTag_append_some roots _ q t hq]; simp

theorem createTagNodeHierarchy_ensures (roots : List TagNode) (tp : Str)
    (fs : Fs) (now s : Str) (rest : List Str) (hsp : splitSegs tp = s :: rest) :
    findRootTag (createTagNodeHierarchy roots tp fs now).1 s ≠ none := by
  cases hfr : findRootTag roots s with
  | some t =>
    have heq : (createTagNodeHierarchy roots tp fs now).1 =
        replaceRootTag roots s (walkCreateOnly t rest fs now).1 := by
      unfold createTagNodeHierarchy
      rw [hsp]
      simp only [hfr]
    rw [heq]
    rw [findRootTag_replace_self roots s t _ hfr
      ((walkCreateOnly_preserves_name_path t rest fs now).1.trans
        (findRootTag_some_name roots s t hfr))]
    simp
  | none =>
    have heq : (createTagNodeHierarchy roots tp fs now).1 =
        replaceRootTag (roots ++ [(mkTagNode s s fs now).1]) s
          (walkCreateOnly (mkTagNode s s fs now).1 rest
            (mkTagNode s s fs now).2 now).1 := by
      unfold createTagNodeHierarchy
      rw [hsp]
      simp only [hfr]
    rw [heq]
    have hfind : findRootTag (roots ++ [(mkTagNode s s fs now).1]) s =
        some (mkTagNode s s fs now).1 := by
      rw [findRootTag_append_left roots _ s hfr]
      simp [findRootTag, mkTagNode, TagNode.name]
    have hnm : (mkTagNode s s fs now).1.name = s := rfl
    rw [findRootTag_replace_self _ s (mkTagNode s s fs now).1 _ hfind
      ((walkCreateOnly_preserves_name_path (mkTagNode s s fs now).1 rest
        (mkTagNode s s fs now).2 now).1.trans hnm)]
    simp

theorem populateLoop_preserves : ∀ (names : List Str) (roots : List TagNode) (fs : Fs)
    (now q : Str), findRootTag roots q ≠ none →
    findRootTag (populateLoop names roots fs now).1 q ≠ none
  | [], roots, fs, now, q, h => h
  | g :: rest, roots, fs, now, q, h => by
    simp only [populateLoop]
    split
    · split
      · exact populateLoop_preserves rest roots fs now q h
      · split
        · exact populateLoop_preserves rest _ _ now q
            (createTagNodeHierarchy_preserves roots _ fs now q h)
        · exact populateLoop_preserves rest roots fs now q h
    · exact populateLoop_preserves rest roots fs now q h

theorem populateLoop_ensures : ∀ (names : List Str) (roots : List TagNode) (fs : Fs)
    (now name f : Str), validLabelPath name → '/' ∉ name → jsTrim name ≠ [] →
    getMetadataFilePath name = some f → f ∈ names →
    findRootTag (populateLoop names roots fs now).1 name ≠ none
  | [], _, _, _, _, _, _, _, _, _, hm => absurd hm (by simp)
  | g :: rest, roots, fs, now, name, f, hv, hsl, htr, hmf, hmem => by
    rcases List.mem_cons.mp hmem with heq | hmem'
    · subst heq
      have hshape := getMetadataFilePath_shape name f hmf
      have hmd : endsWithMd f = true := by
        rw [hshape]
        exact endsWithMd_append _
      have hextract : extractTagPathFromFilename f = name := by
        obtain ⟨f', hf', hx⟩ := metaFilename_roundtrip name hv
        have : f' = f := Option.some.inj (hf'.symm.trans hmf)
        exact this ▸ hx
      have hname_ne : ¬(name = [] ∨ jsTrim name = []) := by
        push_neg
        exact ⟨hv.1, htr⟩
      have hsingle := splitSegs_single name hv.1 hsl
      have hchar := getNodeRoots_single_char roots name htr hsingle
      simp only [populateLoop, hmd, if_true, hextract]
      rw [if_neg hname_ne]
      cases hfr : findRootTag roots name with
      | none =>
        simp only [hchar, hfr]
        exact populateLoop_preserves rest _ _ now name
          (createTagNodeHierarchy_ensures roots name fs now name [] hsingle)
      | some t =>
        simp only [hchar, hfr]
        exact populateLoop_preserves rest roots fs now name (by rw [hfr]; simp)
    · simp only [populateLoop]
      split
      · split
        · exact populateLoop_ensures rest roots fs now name f hv hsl htr hmf hmem'
        · split
          · exact populateLoop_ensures rest _ _ now name f hv hsl htr hmf hmem'
          · exact populateLoop_ensures rest roots fs now name f hv hsl htr hmf hmem'
      · exact populateLoop_ensures rest roots fs now name f hv hsl htr hmf hmem'

/-- **C10.** Top-level deletion leaves the sidecar: a single-segment
`delChildNode` only removes the node from the root tag set and leaves the
metadata directory exactly unchanged — unlike deeper deletions, which go
through `removeChildNode` and hence `deleteMeta` on the removed child's
path; consequently a subsequent `recomputeTree` re-creates a deleted
top-level node from its surviving sidecar via the reconciliation pass. -/
theorem C10_topLevel_delete_keeps_sidecar :
    (∀ (r : TreeRoot) (fs : Fs) (p s : Str), splitSegs p = [s] →
      (delChildNode r fs p).2.2 = fs) ∧
    (∀ (r : TreeRoot) (fs : Fs) (p : Str) (tgt : TagNode) (s s2 : Str)
      (rest' : List Str), splitSegs p = s :: s2 :: rest' →
      getNode r p = .found tgt →
      (delChildNode r fs p).2.2 = (deleteMeta fs tgt.path).2) ∧
    (∀ (r : TreeRoot) (cfg : Str) (vault : List VFile) (fs : Fs) (now name f : Str),
      validLabelPath name → '/' ∉ name → jsTrim name ≠ [] →
      getMetadataFilePath name = some f → fsHas fs f = true →
      ∃ t, getNode (recomputeTree r cfg vault fs now).1 name = .found t) := by
  refine ⟨?_, ?_, ?_⟩
  · intro r fs p s hsp
    unfold delChildNode
    by_cases ht : jsTrim p = []
    · rw [if_pos ht]
    · rw [if_neg ht, hsp]
      cases h : findRootTag r.rootTags s <;> simp [h]
  · intro r fs p tgt s s2 rest' hsp hres
    have htrim : jsTrim p ≠ [] := by
      intro h
      unfold getNode getNodeRoots at hres
      rw [if_pos h] at hres
      simp at hres
    unfold getNode getNodeRoots at hres
    rw [if_neg htrim, hsp] at hres
    cases hfr : findRootTag r.rootTags s with
    | none => simp only [hfr] at hres; exact absurd hres (by simp)
    | some t =>
      simp only [hfr] at hres
      cases hnav : navigate t (s2 :: rest') with
      | none => simp only [hnav] at hres; exact absurd hnav (by simp [hnav] at hres)
      | some x =>
        simp only [hnav] at hres
        have hx : x = tgt := by
          cases hres
          rfl
        subst hx
        have hml := splitLastSeg_spec s2 rest'
        have hdel : (delChildNode r fs p).2.2 =
            (removeAt t fs (splitLastSeg (s2 :: rest')).1
              (splitLastSeg (s2 :: rest')).2).2.2 := by
          unfold delChildNode
          rw [if_neg htrim, hsp]
          simp only [hfr]
        rw [hdel]
        refine removeAt_fs (splitLastSeg (s2 :: rest')).1 t fs
          (splitLastSeg (s2 :: rest')).2 x ?_
        rw [hml]
        exact hnav
  · intro r cfg vault fs now name f hv hsl htr hmf hfs
    have hscan := processAllFiles_inv vault [] [] fs (vault.map (fun f => f.path)) now
      (by intro p hp g hg; simp [rootsPaths] at hp)
    have hf2 : fsHas (processAllFiles vault [] [] fs
        (vault.map (fun f => f.path)) now).2.2 f = true := hscan.2 f hfs
    have hmem := fsHas_mem_keys _ f hf2
    have hens := populateLoop_ensures
      ((processAllFiles vault [] [] fs (vault.map (fun f => f.path)) now).2.2.map
        (fun e => e.1))
      (processAllFiles vault [] [] fs (vault.map (fun f => f.path)) now).1
      (processAllFiles vault [] [] fs (vault.map (fun f => f.path)) now).2.2
      now name f hv hsl htr hmf hmem
    have hroots : (recomputeTree r cfg vault fs now).1.rootTags =
        (populateLoop
          ((processAllFiles vault [] [] fs (vault.map (fun f => f.path)) now).2.2.map
            (fun e => e.1))
          (processAllFiles vault [] [] fs (vault.map (fun f => f.path)) now).1
          (processAllFiles vault [] [] fs (vault.map (fun f => f.path)) now).2.2
          now).1 := by
      simp only [recomputeTree, populateEmptyTagFoldersFromMetadata]
    show ∃ t, getNodeRoots (recomputeTree r cfg vault fs now).1.rootTags name = .found t
    rw [hroots, getNodeRoots_single_char _ name htr (splitSegs_single name hv.1 hsl)]
    cases hfr : findRootTag (populateLoop
        ((processAllFiles vault [] [] fs (vault.map (fun f => f.path)) now).2.2.map
          (fun e => e.1))
        (processAllFiles vault [] [] fs (vault.map (fun f => f.path)) now).1
        (processAllFiles vault [] [] fs (vault.map (fun f => f.path)) now).2.2
        now).1 name with
    | none => exact absurd hfr hens
    | some t => exact ⟨t, by simp⟩

/-- Witness: deleting the top-level node `a` leaves its sidecar on disk, and
a recompute over an empty vault restores the node from that sidecar. -/
theorem C10_topLevel_delete_keeps_sidecar_witness :
    (delChildNode ⟨[.mk "a".data "a".data .nil []], [], [], 0⟩
      [("a_YQ==.md".data, .ok "x".data)] "a".data).2.2 =
        [("a_YQ==.md".data, .ok "x".data)] ∧
    (∃ t, getNode (recomputeTree ⟨[], [], [], 0⟩ [] []
      [("a_YQ==.md".data, .ok "x".data)] "T".data).1 "a".data = .found t) :=
  ⟨C10_topLevel_delete_keeps_sidecar.1 ⟨[.mk "a".data "a".data .nil []], [], [], 0⟩
      [("a_YQ==.md".data, .ok "x".data)] "a".data "a".data (by decide),
   C10_topLevel_delete_keeps_sidecar.2.2 ⟨[], [], [], 0⟩ [] []
      [("a_YQ==.md".data, .ok "x".data)] "T".data "a".data "a_YQ==.md".data
      (by decide) (by decide) (by decide) (by decide) (by decide)⟩

-- ==================== C5: updateMeta scalar append-if-not-substring ====================

/-- **C5 (counterexample).** On a freshly created node named `x` (path `x`)
the initial description already contains `"x"` (in the name and path), so
both `updateMeta` calls append nothing and the final description contains
`'x'` twice, not exactly once. -/
theorem C5_counterexample_description_contains_x_twice :
    recordGet (readMeta (updateMeta (updateMeta
        (createNewMeta [] "x".data "x".data "T".data).2
        "x".data [("description".data, .s "x".data)]).2
        "x".data [("description".data, .s "x".data)]).2 "x".data)
      "description".data =
      some (.s ("TagNode Metadata for x\nThis file contains metadata for the TagNode at path: `x`".data)) ∧
    List.count 'x'
      "TagNode Metadata for x\nThis file contains metadata for the TagNode at path: `x`".data = 2 := by
  exact ⟨by decide, by decide⟩

-- ==================== C5: frontmatter round-trip machinery ====================

/-- The description text of a fresh sidecar as recovered by the
block-scalar parsing branch. -/
def descInit (name path : Str) : Str :=
  "TagNode Metadata for ".data ++ name ++ '\n' ::
    ("This file contains metadata for the TagNode at path: `".data ++ path ++ "`".data)

/-- The legend text of a fresh sidecar as recovered by the block-scalar
parsing branch. -/
def legendInit : Str :=
  ("- 🔴, label one\n- 🟠, label two\n- 🟡, label three\n"
    ++ "- 🟢, label four\n- 🔵, label five\n- 🟣, label six").data

/-- The front-matter lines (between the two `---` markers) of a fresh
sidecar, in the grouping produced by the extraction step. -/
def initInnerLines (name path now : Str) : List Str :=
  [ "path".data ++ ':' :: ' ' :: '"' :: (path ++ ['"']),
    "name".data ++ ':' :: ' ' :: '"' :: (name ++ ['"']),
    "created".data ++ ':' :: ' ' :: '"' :: (now ++ ['"']),
    "modified".data ++ ':' :: ' ' :: '"' :: (now ++ ['"']),
    "description".data ++ ':' :: ' ' :: '|' :: '-' :: [],
    "  TagNode Metadata for ".data ++ name,
    "  This file contains metadata for the TagNode at path: `".data ++ path ++ "`".data,
    "legend".data ++ ':' :: ' ' :: '|' :: '-' :: [],
    "  - 🔴, label one".data,
    "  - 🟠, label two".data,
    "  - 🟡, label three".data,
    "  - 🟢, label four".data,
    "  - 🔵, label five".data,
    "  - 🟣, label six".data ]

/-- The record parsed from a fresh sidecar. -/
def initRecord (name path now : Str) : Record :=
  [ ("path".data, .s path), ("name".data, .s name), ("created".data, .s now),
    ("modified".data, .s now), ("description".data, .s (descInit name path)),
    ("legend".data, .s legendInit) ]

/-- The description text after one successful append of the payload text. -/
def descAfter (name path : Str) : Str := descInit name path ++ '\n' :: "x".data

/-- The record after merging the payload `{description: "x"}` into a fresh
record. -/
def midRecord (name path now : Str) : Record :=
  [ ("path".data, .s path), ("name".data, .s name), ("created".data, .s now),
    ("modified".data, .s now), ("description".data, .s (descAfter name path)),
    ("legend".data, .s legendInit) ]

/-- The serialized front-matter lines of `midRecord`. -/
def midLines (name path now : Str) : List Str :=
  [ "path".data ++ ':' :: ' ' :: '"' :: (path ++ ['"']),
    "name".data ++ ':' :: ' ' :: '"' :: (name ++ ['"']),
    "created".data ++ ':' :: ' ' :: '"' :: (now ++ ['"']),
    "modified".data ++ ':' :: ' ' :: '"' :: (now ++ ['"']),
    "description".data ++ ':' :: ' ' :: '|' :: '-' :: [],
    "  TagNode Metadata for ".data ++ name,
    "  This file contains metadata for the TagNode at path: `".data ++ path ++ "`".data,
    "  x".data,
    "legend".data ++ ':' :: ' ' :: '|' :: '-' :: [],
    "  - 🔴, label one".data,
    "  - 🟠, label two".data,
    "  - 🟡, label three".data,
    "  - 🟢, label four".data,
    "  - 🔵, label five".data,
    "  - 🟣, label six".data ]

/-- The sidecar content written back by an `updateMeta` that produced
`midRecord` over an empty body. -/
def midContent (name path now : Str) : Str :=
  "---\n".data ++ List.intercalate ['\n'] (midLines name path now) ++ "\n---\n\n".data

-- general list utilities for the parser proofs

theorem takeWhileAppendAll {α : Type} {p : α → Bool} (l₁ l₂ : List α)
    (h : ∀ x ∈ l₁, p x = true) :
    List.takeWhile p (l₁ ++ l₂) = l₁ ++ List.takeWhile p l₂ := by
  induction l₁ with
  | nil => rfl
  | cons c t ih =>
    simp only [List.cons_append, List.takeWhile_cons, h c (List.mem_cons_self c t), if_true]
    rw [ih (fun x hx => h x (List.mem_cons.mpr (Or.inr hx)))]

theorem dropWhileAppendAll {α : Type} {p : α → Bool} (l₁ l₂ : List α)
    (h : ∀ x ∈ l₁, p x = true) :
    List.dropWhile p (l₁ ++ l₂) = List.dropWhile p l₂ := by
  induction l₁ with
  | nil => rfl
  | cons c t ih =>
    simp only [List.cons_append, List.dropWhile_cons, h c (List.mem_cons_self c t), if_true]
    exact ih (fun x hx => h x (List.mem_cons.mpr (Or.inr hx)))

theorem takeWhileNilOfHeadFalse {α : Type} {p : α → Bool} :
    ∀ (l : List α), (∀ x ls, l = x :: ls → p x = false) → List.takeWhile p l = []
  | [], _ => rfl
  | x :: ls, h => by simp [List.takeWhile_cons, h x ls rfl]

theorem dropWhileSelfOfHeadFalse {α : Type} {p : α → Bool} :
    ∀ (l : List α), (∀ x ls, l = x :: ls → p x = false) → List.dropWhile p l = l
  | [], _ => rfl
  | x :: ls, h => by simp [List.dropWhile_cons, h x ls rfl]

theorem intercalate_single {α : Type} (sep x : List α) :
    List.intercalate sep [x] = x := by
  simp only [List.intercalate, List.intersperse_single, List.flatten_cons,
    List.flatten_nil, List.append_nil]

theorem intercalate_cons2 {α : Type} (sep x y : List α) (t : List (List α)) :
    List.intercalate sep (x :: y :: t) = x ++ sep ++ List.intercalate sep (y :: t) := by
  simp only [List.intercalate, List.intersperse_cons_cons, List.flatten_cons,
    List.append_assoc]

theorem splitOnChar_not_mem (sep : Char) :
    ∀ (s : Str), ∀ l ∈ splitOnChar sep s, sep ∉ l := by
  intro s
  induction s with
  | nil =>
    intro l hl
    simp only [splitOnChar, List.mem_singleton] at hl
    simp [hl]
  | cons c rest ih =>
    intro l hl
    cases hsp : splitOnChar sep rest with
    | nil => exact absurd hsp (splitOnChar_ne_nil sep rest)
    | cons hh tt =>
      have hmemh : hh ∈ splitOnChar sep rest := by
        rw [hsp]; exact List.mem_cons_self hh tt
      by_cases hc : c = sep
      · have hred : splitOnChar sep (c :: rest) = [] :: hh :: tt := by
          simp only [splitOnChar, hsp]; rw [if_pos hc]
        rw [hred] at hl
        rcases List.mem_cons.mp hl with h1 | h2
        · simp [h1]
        · have hm2 : l ∈ splitOnChar sep rest := by
            rw [hsp]; exact h2
          exact ih l hm2
      · have hred : splitOnChar sep (c :: rest) = (c :: hh) :: tt := by
          simp only [splitOnChar, hsp]; rw [if_neg hc]
        rw [hred] at hl
        rcases List.mem_cons.mp hl with h1 | h2
        · subst h1
          intro hm
          rcases List.mem_cons.mp hm with h3 | h4
          · exact hc h3.symm
          · exact ih hh hmemh h4
        · have hm2 : l ∈ splitOnChar sep rest := by
            rw [hsp]; exact List.mem_cons.mpr (Or.inr h2)
          exact ih l hm2

theorem splitOnChar_intercalate (sep : Char) :
    ∀ (ls : List Str), ls ≠ [] → (∀ l ∈ ls, sep ∉ l) →
    splitOnChar sep (List.intercalate [sep] ls) = ls := by
  intro ls
  induction ls with
  | nil => intro h; exact absurd rfl h
  | cons a t ih =>
    intro _ h
    cases t with
    | nil =>
      rw [intercalate_single]
      exact splitOnChar_no_sep sep a (h a (List.mem_cons_self a []))
    | cons b t2 =>
      rw [intercalate_cons2, List.append_assoc]
      have : ([sep] ++ List.intercalate [sep] (b :: t2)) = sep :: List.intercalate [sep] (b :: t2) := rfl
      rw [this, splitOnChar_append,
        splitOnChar_no_sep sep a (h a (List.mem_cons_self a (b :: t2))),
        ih (by simp) (fun l hl => h l (List.mem_cons.mpr (Or.inr hl)))]
      rfl

theorem recordGet_set_self (r : Record) (k : Str) (v : Val) :
    recordGet (recordSet r k v) k = some v := by
  induction r with
  | nil => simp [recordSet, recordGet]
  | cons kv rest ih =>
    obtain ⟨k0, v0⟩ := kv
    by_cases hk : k0 = k
    · simp [recordSet, recordGet, hk]
    · simp [recordSet, recordGet, hk, ih]

theorem recordSet_self_of_get (r : Record) (k : Str) (v : Val)
    (h : recordGet r k = some v) : recordSet r k v = r := by
  induction r with
  | nil => simp [recordGet] at h
  | cons kv rest ih =>
    obtain ⟨k0, v0⟩ := kv
    by_cases hk : k0 = k
    · simp only [recordGet, if_pos hk, Option.some.injEq] at h
      simp [recordSet, hk, h]
    · simp only [recordGet, if_neg hk] at h
      simp [recordSet, hk, ih h]

theorem fsLookup_write_self (fs : Fs) (n : Str) (d : FData) :
    fsLookup (fsWrite fs n d) n = some d := by
  induction fs with
  | nil => simp [fsWrite, fsLookup]
  | cons kv rest ih =>
    obtain ⟨n0, d0⟩ := kv
    by_cases hn : n0 = n
    · simp [fsWrite, fsLookup, hn]
    · simp [fsWrite, fsLookup, hn, ih]

theorem jsIncludes_single_iff (c : Char) :
    ∀ (hay : Str), jsIncludes hay [c] = true ↔ c ∈ hay
  | [] => by simp [jsIncludes]
  | h :: t => by
    have ih := jsIncludes_single_iff c t
    simp only [jsIncludes, List.isPrefixOf, Bool.or_eq_true, Bool.and_eq_true,
      beq_iff_eq, and_true, ih, List.mem_cons]

theorem escapeQuotes_id : ∀ (v : Str), '"' ∉ v → escapeQuotes v = v
  | [], _ => rfl
  | c :: t, h => by
    have hc : c ≠ '"' := fun he => h (he ▸ List.mem_cons_self c t)
    simp [escapeQuotes, hc,
      escapeQuotes_id t (fun hm => h (List.mem_cons.mpr (Or.inr hm)))]

theorem parseFMLoop_nil (fuel : Nat) (acc : Record) : parseFMLoop fuel [] acc = acc := by
  cases fuel <;> rfl

theorem not_mem_append2 {c : Char} {a b : Str} (ha : c ∉ a) (hb : c ∉ b) :
    c ∉ a ++ b := by
  intro hm
  rcases List.mem_append.mp hm with h1 | h2
  · exact ha h1
  · exact hb h2

theorem not_mem_append3 {c : Char} {a b d : Str} (ha : c ∉ a) (hb : c ∉ b) (hd : c ∉ d) :
    c ∉ a ++ b ++ d := by
  intro hm
  rcases List.mem_append.mp hm with h1 | h2
  · rcases List.mem_append.mp h1 with h3 | h4
    · exact ha h3
    · exact hb h4
  · exact hd h2

theorem intercalate_pair {α : Type} (sep : α) (x y : List α) :
    List.intercalate [sep] [x, y] = x ++ sep :: y := by
  rw [intercalate_cons2, intercalate_single, List.append_assoc]
  rfl

-- one parsing-loop step for a quoted scalar line

theorem parse_step_quoted (fuel : Nat) (k v : Str) (rest : List Str) (acc : Record)
    (hkey : ∀ r, lineKeyRest (k ++ ':' :: r) = some (k, r))
    (hv : '"' ∉ v) :
    parseFMLoop (fuel + 1) ((k ++ ':' :: ' ' :: '"' :: (v ++ ['"'])) :: rest) acc
      = parseFMLoop fuel rest (recordSet acc k (.s v)) := by
  have hws : isAllWs (k ++ ':' :: ' ' :: '"' :: (v ++ ['"'])) = false := by
    simp only [isAllWs, List.all_append, List.all_cons]
    have h1 : isJsSpace ':' = false := by decide
    simp [h1]
  have hline := hkey (' ' :: '"' :: (v ++ ['"']))
  have hr1 : isAllWs (' ' :: '"' :: (v ++ ['"'])) = false := by
    simp only [isAllWs, List.all_cons]
    have h1 : isJsSpace '"' = false := by decide
    simp [h1]
  have hbh : isBlockHeader (' ' :: '"' :: (v ++ ['"'])) = false := rfl
  have hsv : scalarVal (' ' :: '"' :: (v ++ ['"'])) = some v := by
    have hdw : (' ' :: '"' :: (v ++ ['"'])).dropWhile isJsSpace = '"' :: (v ++ ['"']) := rfl
    simp only [scalarVal, hdw]
    rw [if_pos ⟨List.getLast?_concat _, by rw [List.dropLast_concat]; exact hv⟩,
      List.dropLast_concat]
  simp only [parseFMLoop, hws, hline, hr1, hbh, hsv, Bool.false_eq_true, if_false]

-- one parsing-loop step for a block-scalar header line and its body

theorem parse_step_block (fuel : Nat) (k : Str) (bs rest2 : List Str) (acc : Record)
    (hkey : ∀ r, lineKeyRest (k ++ ':' :: r) = some (k, r))
    (hbs : ∀ b ∈ bs, startsWsLine b = true)
    (hrest2 : ∀ l ls, rest2 = l :: ls → startsWsLine l = false) :
    parseFMLoop (fuel + 1) ((k ++ ':' :: ' ' :: '|' :: '-' :: []) :: (bs ++ rest2)) acc
      = parseFMLoop fuel rest2
          (recordSet acc k (.s (List.intercalate ['\n'] (bs.map stripLeadWs)))) := by
  have hws : isAllWs (k ++ ':' :: ' ' :: '|' :: '-' :: []) = false := by
    simp only [isAllWs, List.all_append, List.all_cons]
    have h1 : isJsSpace ':' = false := by decide
    simp [h1]
  have hline := hkey (' ' :: '|' :: '-' :: [])
  have hr1 : isAllWs (' ' :: '|' :: '-' :: []) = false := by decide
  have hbh : isBlockHeader (' ' :: '|' :: '-' :: []) = true := by decide
  have htw : List.takeWhile startsWsLine (bs ++ rest2) = bs := by
    rw [takeWhileAppendAll bs rest2 hbs, takeWhileNilOfHeadFalse rest2 hrest2,
      List.append_nil]
  have hdw : List.dropWhile startsWsLine (bs ++ rest2) = rest2 := by
    rw [dropWhileAppendAll bs rest2 hbs, dropWhileSelfOfHeadFalse rest2 hrest2]
  simp only [parseFMLoop, hws, hline, hr1, hbh, htw, hdw, Bool.false_eq_true, if_false,
    if_true]

-- the key-prefix parses of the six sidecar keys

theorem lineKeyRest_path : ∀ r, lineKeyRest ("path".data ++ ':' :: r) = some ("path".data, r) :=
  fun _ => rfl

theorem lineKeyRest_name : ∀ r, lineKeyRest ("name".data ++ ':' :: r) = some ("name".data, r) :=
  fun _ => rfl

theorem lineKeyRest_created :
    ∀ r, lineKeyRest ("created".data ++ ':' :: r) = some ("created".data, r) :=
  fun _ => rfl

theorem lineKeyRest_modified :
    ∀ r, lineKeyRest ("modified".data ++ ':' :: r) = some ("modified".data, r) :=
  fun _ => rfl

theorem lineKeyRest_description :
    ∀ r, lineKeyRest ("description".data ++ ':' :: r) = some ("description".data, r) :=
  fun _ => rfl

theorem lineKeyRest_legend :
    ∀ r, lineKeyRest ("legend".data ++ ':' :: r) = some ("legend".data, r) :=
  fun _ => rfl

-- the fresh sidecar content splits into its constituent lines

theorem split_initial (name path now : Str)
    (hn1 : '\n' ∉ name) (hn2 : '\n' ∉ path) (hn3 : '\n' ∉ now) :
    splitOnChar '\n' (initialMetaContent name path now) = initialMetaLines name path now := by
  unfold initialMetaContent
  apply splitOnChar_intercalate
  · simp [initialMetaLines]
  · intro l hl
    simp only [initialMetaLines, List.mem_cons, List.not_mem_nil, or_false] at hl
    rcases hl with h|h|h|h|h|h|h|h|h|h|h|h|h|h|h|h|h|h
    all_goals subst h
    all_goals first
      | decide
      | exact not_mem_append3 (by decide) hn2 (by decide)
      | exact not_mem_append3 (by decide) hn1 (by decide)
      | exact not_mem_append3 (by decide) hn3 (by decide)
      | exact not_mem_append2 (by decide) hn1

theorem extractFMLines_initial (name path now : Str) :
    extractFMLines (initialMetaLines name path now) = some (initInnerLines name path now) :=
  rfl

theorem extractFMBody_initial (name path now : Str) :
    extractFMBody (initialMetaLines name path now) = some (initInnerLines name path now, []) :=
  rfl

-- parsing the fresh front-matter lines yields the fresh record

theorem parse_initial (name path now : Str)
    (hq1 : '"' ∉ name) (hq2 : '"' ∉ path) (hq3 : '"' ∉ now) :
    parseFrontmatter (initInnerLines name path now) = initRecord name path now := by
  have hlen : (initInnerLines name path now).length + 1 = 15 := rfl
  unfold parseFrontmatter
  rw [hlen]
  simp only [initInnerLines]
  rw [show (15 : Nat) = 14 + 1 from rfl, parse_step_quoted 14 "path".data path _ _ lineKeyRest_path hq2]
  rw [show (14 : Nat) = 13 + 1 from rfl, parse_step_quoted 13 "name".data name _ _ lineKeyRest_name hq1]
  rw [show (13 : Nat) = 12 + 1 from rfl, parse_step_quoted 12 "created".data now _ _ lineKeyRest_created hq3]
  rw [show (12 : Nat) = 11 + 1 from rfl, parse_step_quoted 11 "modified".data now _ _ lineKeyRest_modified hq3]
  rw [show ("  TagNode Metadata for ".data ++ name) ::
      ("  This file contains metadata for the TagNode at path: `".data ++ path ++ "`".data) ::
      ("legend".data ++ ':' :: ' ' :: '|' :: '-' :: []) ::
      "  - 🔴, label one".data :: "  - 🟠, label two".data :: "  - 🟡, label three".data ::
      "  - 🟢, label four".data :: "  - 🔵, label five".data :: ["  - 🟣, label six".data]
    = ["  TagNode Metadata for ".data ++ name,
       "  This file contains metadata for the TagNode at path: `".data ++ path ++ "`".data]
      ++ (("legend".data ++ ':' :: ' ' :: '|' :: '-' :: []) ::
          "  - 🔴, label one".data :: "  - 🟠, label two".data :: "  - 🟡, label three".data ::
          "  - 🟢, label four".data :: "  - 🔵, label five".data :: ["  - 🟣, label six".data])
    from rfl]
  rw [show (11 : Nat) = 10 + 1 from rfl,
    parse_step_block 10 "description".data
      ["  TagNode Metadata for ".data ++ name,
       "  This file contains metadata for the TagNode at path: `".data ++ path ++ "`".data]
      _ _ lineKeyRest_description
      (by
        intro b hb
        rcases List.mem_cons.mp hb with h | h
        · subst h; rfl
        · rcases List.mem_cons.mp h with h2 | h2
          · subst h2; rfl
          · exact absurd h2 (List.not_mem_nil b))
      (by
        intro l ls h
        injection h with h1 h2
        rw [← h1]
        rfl)]
  rw [show "  - 🔴, label one".data :: "  - 🟠, label two".data :: "  - 🟡, label three".data ::
      "  - 🟢, label four".data :: "  - 🔵, label five".data :: ["  - 🟣, label six".data]
    = ["  - 🔴, label one".data, "  - 🟠, label two".data, "  - 🟡, label three".data,
       "  - 🟢, label four".data, "  - 🔵, label five".data, "  - 🟣, label six".data]
      ++ ([] : List Str)
    from by simp]
  rw [show (10 : Nat) = 9 + 1 from rfl,
    parse_step_block 9 "legend".data
      ["  - 🔴, label one".data, "  - 🟠, label two".data, "  - 🟡, label three".data,
       "  - 🟢, label four".data, "  - 🔵, label five".data, "  - 🟣, label six".data]
      ([] : List Str) _ lineKeyRest_legend (by decide) (fun l ls h => nomatch h)]
  rw [parseFMLoop_nil]
  have hd1 : stripLeadWs ("  TagNode Metadata for ".data ++ name)
      = "TagNode Metadata for ".data ++ name := rfl
  have hd2 : stripLeadWs
        ("  This file contains metadata for the TagNode at path: `".data ++ path ++ "`".data)
      = "This file contains metadata for the TagNode at path: `".data ++ path ++ "`".data := rfl
  have hvd : List.intercalate ['\n']
        (List.map stripLeadWs
          ["  TagNode Metadata for ".data ++ name,
           "  This file contains metadata for the TagNode at path: `".data ++ path ++ "`".data])
      = descInit name path := by
    rw [List.map_cons, List.map_cons, List.map_nil, hd1, hd2, intercalate_pair]
    simp [descInit, List.append_assoc]
  have hvl : List.intercalate ['\n']
        (List.map stripLeadWs
          ["  - 🔴, label one".data, "  - 🟠, label two".data, "  - 🟡, label three".data,
           "  - 🟢, label four".data, "  - 🔵, label five".data, "  - 🟣, label six".data])
      = legendInit := by decide
  rw [hvd, hvl]
  rfl

theorem nl_mem_descAfter (name path : Str) : '\n' ∈ descAfter name path := by
  unfold descAfter
  exact List.mem_append.mpr (Or.inr (List.mem_cons_self _ _))

theorem nl_mem_legendInit : '\n' ∈ legendInit := by decide

theorem split_descAfter (name path : Str) (hn1 : '\n' ∉ name) (hn2 : '\n' ∉ path) :
    splitOnChar '\n' (descAfter name path)
      = ["TagNode Metadata for ".data ++ name,
         "This file contains metadata for the TagNode at path: `".data ++ path ++ "`".data,
         "x".data] := by
  have hshape : descAfter name path
      = ("TagNode Metadata for ".data ++ name)
        ++ '\n' :: (("This file contains metadata for the TagNode at path: `".data
              ++ path ++ "`".data)
            ++ '\n' :: "x".data) := by
    unfold descAfter descInit
    simp [List.append_assoc]
  rw [hshape, splitOnChar_append, splitOnChar_append,
    splitOnChar_no_sep '\n' ("TagNode Metadata for ".data ++ name)
      (not_mem_append2 (by decide) hn1),
    splitOnChar_no_sep '\n'
      ("This file contains metadata for the TagNode at path: `".data ++ path ++ "`".data)
      (not_mem_append3 (by decide) hn2 (by decide))]
  rfl

theorem split_legendInit :
    splitOnChar '\n' legendInit
      = ["- 🔴, label one".data, "- 🟠, label two".data, "- 🟡, label three".data,
         "- 🟢, label four".data, "- 🔵, label five".data, "- 🟣, label six".data] := by
  decide

theorem serialize_mid (name path now : Str)
    (hn1 : '\n' ∉ name) (hn2 : '\n' ∉ path) (hn3 : '\n' ∉ now)
    (hq1 : '"' ∉ name) (hq2 : '"' ∉ path) (hq3 : '"' ∉ now) :
    serializeFrontmatter (midRecord name path now) = midLines name path now := by
  unfold serializeFrontmatter midRecord
  have e1 : entryLines ("path".data, Val.s path)
      = ["path".data ++ ':' :: ' ' :: '"' :: (path ++ ['"'])] := by
    simp only [entryLines]
    rw [if_neg hn2, escapeQuotes_id path hq2]
    simp [List.append_assoc]
  have e2 : entryLines ("name".data, Val.s name)
      = ["name".data ++ ':' :: ' ' :: '"' :: (name ++ ['"'])] := by
    simp only [entryLines]
    rw [if_neg hn1, escapeQuotes_id name hq1]
    simp [List.append_assoc]
  have e3 : entryLines ("created".data, Val.s now)
      = ["created".data ++ ':' :: ' ' :: '"' :: (now ++ ['"'])] := by
    simp only [entryLines]
    rw [if_neg hn3, escapeQuotes_id now hq3]
    simp [List.append_assoc]
  have e4 : entryLines ("modified".data, Val.s now)
      = ["modified".data ++ ':' :: ' ' :: '"' :: (now ++ ['"'])] := by
    simp only [entryLines]
    rw [if_neg hn3, escapeQuotes_id now hq3]
    simp [List.append_assoc]
  have e5 : entryLines ("description".data, Val.s (descAfter name path))
      = ("description".data ++ ':' :: ' ' :: '|' :: '-' :: [])
        :: ("  TagNode Metadata for ".data ++ name)
        :: ("  This file contains metadata for the TagNode at path: `".data
              ++ path ++ "`".data)
        :: ["  x".data] := by
    simp only [entryLines]
    rw [if_pos (nl_mem_descAfter name path), split_descAfter name path hn1 hn2]
    rfl
  have e6 : entryLines ("legend".data, Val.s legendInit)
      = ("legend".data ++ ':' :: ' ' :: '|' :: '-' :: [])
        :: "  - 🔴, label one".data :: "  - 🟠, label two".data
        :: "  - 🟡, label three".data :: "  - 🟢, label four".data
        :: "  - 🔵, label five".data :: ["  - 🟣, label six".data] := by
    simp only [entryLines]
    rw [if_pos nl_mem_legendInit, split_legendInit]
    rfl
  rw [List.map_cons, List.map_cons, List.map_cons, List.map_cons, List.map_cons,
    List.map_cons, List.map_nil, e1, e2, e3, e4, e5, e6]
  rfl

theorem nl_not_mem_quotedLine {k v : Str} (hk : '\n' ∉ k) (hv : '\n' ∉ v) :
    '\n' ∉ k ++ ':' :: ' ' :: '"' :: (v ++ ['"']) := by
  intro hm
  rcases List.mem_append.mp hm with h1 | h2
  · exact hk h1
  · rcases List.mem_cons.mp h2 with h3 | h4
    · exact absurd h3 (by decide)
    · rcases List.mem_cons.mp h4 with h5 | h6
      · exact absurd h5 (by decide)
      · rcases List.mem_cons.mp h6 with h7 | h8
        · exact absurd h7 (by decide)
        · rcases List.mem_append.mp h8 with h9 | h10
          · exact hv h9
          · exact absurd h10 (by decide)

theorem midLines_no_nl (name path now : Str)
    (hn1 : '\n' ∉ name) (hn2 : '\n' ∉ path) (hn3 : '\n' ∉ now) :
    ∀ l ∈ midLines name path now, '\n' ∉ l := by
  intro l hl
  simp only [midLines, List.mem_cons, List.not_mem_nil, or_false] at hl
  rcases hl with h|h|h|h|h|h|h|h|h|h|h|h|h|h|h
  all_goals subst h
  all_goals first
    | decide
    | exact nl_not_mem_quotedLine (by decide) hn2
    | exact nl_not_mem_quotedLine (by decide) hn1
    | exact nl_not_mem_quotedLine (by decide) hn3
    | exact not_mem_append2 (by decide) hn1
    | exact not_mem_append3 (by decide) hn2 (by decide)

theorem split_mid (name path now : Str)
    (hn1 : '\n' ∉ name) (hn2 : '\n' ∉ path) (hn3 : '\n' ∉ now) :
    splitOnChar '\n' (midContent name path now)
      = "---".data :: (midLines name path now ++ ["---".data, [], []]) := by
  have hshape : midContent name path now
      = "---".data ++ '\n' :: (List.intercalate ['\n'] (midLines name path now)
          ++ '\n' :: ("---".data ++ '\n' :: ('\n' :: []))) := by
    unfold midContent
    simp [List.append_assoc]
  have h1 : splitOnChar '\n' "---".data = ["---".data] := by decide
  have h2 : splitOnChar '\n' ('\n' :: []) = [[], []] := by decide
  rw [hshape, splitOnChar_append, splitOnChar_append, splitOnChar_append,
    splitOnChar_intercalate '\n' (midLines name path now) (by simp [midLines])
      (midLines_no_nl name path now hn1 hn2 hn3), h1, h2]
  simp

theorem extractFMLines_mid (name path now : Str) :
    extractFMLines (['-', '-', '-'] :: (midLines name path now ++ [['-', '-', '-'], [], []]))
      = some (midLines name path now) :=
  rfl

theorem extractFMBody_mid (name path now : Str) :
    extractFMBody (['-', '-', '-'] :: (midLines name path now ++ [['-', '-', '-'], [], []]))
      = some (midLines name path now, []) :=
  rfl

theorem parse_mid (name path now : Str)
    (hq1 : '"' ∉ name) (hq2 : '"' ∉ path) (hq3 : '"' ∉ now) :
    parseFrontmatter (midLines name path now) = midRecord name path now := by
  have hlen : (midLines name path now).length + 1 = 16 := rfl
  unfold parseFrontmatter
  rw [hlen]
  simp only [midLines]
  rw [show (16 : Nat) = 15 + 1 from rfl, parse_step_quoted 15 "path".data path _ _ lineKeyRest_path hq2]
  rw [show (15 : Nat) = 14 + 1 from rfl, parse_step_quoted 14 "name".data name _ _ lineKeyRest_name hq1]
  rw [show (14 : Nat) = 13 + 1 from rfl, parse_step_quoted 13 "created".data now _ _ lineKeyRest_created hq3]
  rw [show (13 : Nat) = 12 + 1 from rfl, parse_step_quoted 12 "modified".data now _ _ lineKeyRest_modified hq3]
  rw [show ("  TagNode Metadata for ".data ++ name) ::
      ("  This file contains metadata for the TagNode at path: `".data ++ path ++ "`".data) ::
      "  x".data ::
      ("legend".data ++ ':' :: ' ' :: '|' :: '-' :: []) ::
      "  - 🔴, label one".data :: "  - 🟠, label two".data :: "  - 🟡, label three".data ::
      "  - 🟢, label four".data :: "  - 🔵, label five".data :: ["  - 🟣, label six".data]
    = ["  TagNode Metadata for ".data ++ name,
       "  This file contains metadata for the TagNode at path: `".data ++ path ++ "`".data,
       "  x".data]
      ++ (("legend".data ++ ':' :: ' ' :: '|' :: '-' :: []) ::
          "  - 🔴, label one".data :: "  - 🟠, label two".data :: "  - 🟡, label three".data ::
          "  - 🟢, label four".data :: "  - 🔵, label five".data :: ["  - 🟣, label six".data])
    from rfl]
  rw [show (12 : Nat) = 11 + 1 from rfl,
    parse_step_block 11 "description".data
      ["  TagNode Metadata for ".data ++ name,
       "  This file contains metadata for the TagNode at path: `".data ++ path ++ "`".data,
       "  x".data]
      _ _ lineKeyRest_description
      (by
        intro b hb
        rcases List.mem_cons.mp hb with h | h
        · subst h; rfl
        · rcases List.mem_cons.mp h with h2 | h2
          · subst h2; rfl
          · rcases List.mem_cons.mp h2 with h3 | h3
            · subst h3; rfl
            · exact absurd h3 (List.not_mem_nil b))
      (by
        intro l ls h
        injection h with h1 h2
        rw [← h1]
        rfl)]
  rw [show "  - 🔴, label one".data :: "  - 🟠, label two".data :: "  - 🟡, label three".data ::
      "  - 🟢, label four".data :: "  - 🔵, label five".data :: ["  - 🟣, label six".data]
    = ["  - 🔴, label one".data, "  - 🟠, label two".data, "  - 🟡, label three".data,
       "  - 🟢, label four".data, "  - 🔵, label five".data, "  - 🟣, label six".data]
      ++ ([] : List Str)
    from by simp]
  rw [show (11 : Nat) = 10 + 1 from rfl,
    parse_step_block 10 "legend".data
      ["  - 🔴, label one".data, "  - 🟠, label two".data, "  - 🟡, label three".data,
       "  - 🟢, label four".data, "  - 🔵, label five".data, "  - 🟣, label six".data]
      ([] : List Str) _ lineKeyRest_legend (by decide) (fun l ls h => nomatch h)]
  rw [parseFMLoop_nil]
  have hd1 : stripLeadWs ("  TagNode Metadata for ".data ++ name)
      = "TagNode Metadata for ".data ++ name := rfl
  have hd2 : stripLeadWs
        ("  This file contains metadata for the TagNode at path: `".data ++ path ++ "`".data)
      = "This file contains metadata for the TagNode at path: `".data ++ path ++ "`".data := rfl
  have hvd : List.intercalate ['\n']
        (List.map stripLeadWs
          ["  TagNode Metadata for ".data ++ name,
           "  This file contains metadata for the TagNode at path: `".data ++ path ++ "`".data,
           "  x".data])
      = descAfter name path := by
    rw [List.map_cons, List.map_cons, List.map_cons, List.map_nil, hd1, hd2,
      show stripLeadWs "  x".data = "x".data from rfl, intercalate_cons2, intercalate_pair]
    simp [descAfter, descInit, List.append_assoc]
  have hvl : List.intercalate ['\n']
        (List.map stripLeadWs
          ["  - 🔴, label one".data, "  - 🟠, label two".data, "  - 🟡, label three".data,
           "  - 🟢, label four".data, "  - 🔵, label five".data, "  - 🟣, label six".data])
      = legendInit := by decide
  rw [hvd, hvl]
  rfl

theorem x_not_mem_descInit (name path : Str) (hx1 : 'x' ∉ name) (hx2 : 'x' ∉ path) :
    'x' ∉ descInit name path := by
  unfold descInit
  intro hm
  rcases List.mem_append.mp hm with h1 | h2
  · exact not_mem_append2 (by decide) hx1 h1
  · rcases List.mem_cons.mp h2 with h3 | h4
    · exact absurd h3 (by decide)
    · exact not_mem_append3 (by decide) hx2 (by decide) h4

theorem count_descAfter (name path : Str) (hx1 : 'x' ∉ name) (hx2 : 'x' ∉ path) :
    List.count 'x' (descAfter name path) = 1 := by
  have hn : List.count 'x' name = 0 := List.count_eq_zero.mpr hx1
  have hp : List.count 'x' path = 0 := List.count_eq_zero.mpr hx2
  have c1 : List.count 'x' "TagNode Metadata for ".data = 0 := by decide
  have cx : List.count 'x' ('\n' :: "x".data) = 1 := by decide
  have cT : List.count 'x'
      ('\n' :: ("This file contains metadata for the TagNode at path: `".data
        ++ path ++ "`".data)) = 0 := by
    rw [List.count_cons, List.count_append, List.count_append,
      (by decide : List.count 'x'
        "This file contains metadata for the TagNode at path: `".data = 0),
      hp,
      (by decide : List.count 'x' "`".data = 0)]
    decide
  unfold descAfter descInit
  rw [List.count_append, List.count_append, List.count_append, c1, hn, cT, cx]

theorem createNewMeta_fresh (fs : Fs) (name path now f : Str)
    (henc : getMetadataFilePath path = some f) (hfresh : fsHas fs f = false) :
    (createNewMeta fs name path now).2
      = fsWrite fs f (.ok (initialMetaContent name path now)) := by
  unfold createNewMeta
  simp only [henc, hfresh, Bool.false_eq_true, if_false]

set_option maxHeartbeats 1000000 in
theorem updateMeta_first (fs : Fs) (name path now f : Str)
    (henc : getMetadataFilePath path = some f)
    (hn1 : '\n' ∉ name) (hn2 : '\n' ∉ path) (hn3 : '\n' ∉ now)
    (hq1 : '"' ∉ name) (hq2 : '"' ∉ path) (hq3 : '"' ∉ now)
    (hx1 : 'x' ∉ name) (hx2 : 'x' ∉ path)
    (hlook : fsLookup fs f = some (.ok (initialMetaContent name path now))) :
    (updateMeta fs path [("description".data, .s "x".data)]).2
      = fsWrite fs f (.ok (midContent name path now)) := by
  have hmerge : mergeRecord (initRecord name path now) [("description".data, Val.s "x".data)]
      = midRecord name path now := by
    unfold mergeRecord
    simp only [List.foldl_cons, List.foldl_nil]
    have hget : recordGet (initRecord name path now) "description".data
        = some (.s (descInit name path)) := rfl
    rw [hget]
    simp only [mergeVal]
    rw [if_neg (by decide : ¬("x".data = ([] : Str)))]
    have hinc : jsIncludes (descInit name path) "x".data = false := by
      rw [show "x".data = ['x'] from rfl]
      cases hb : jsIncludes (descInit name path) ['x']
      · rfl
      · exact absurd ((jsIncludes_single_iff 'x' _).mp hb)
          (x_not_mem_descInit name path hx1 hx2)
    rw [hinc]
    rfl
  unfold updateMeta
  simp only [henc, hlook, split_initial name path now hn1 hn2 hn3, extractFMBody_initial,
    parse_initial name path now hq1 hq2 hq3, hmerge,
    serialize_mid name path now hn1 hn2 hn3 hq1 hq2 hq3]
  simp [midContent]

set_option maxHeartbeats 1000000 in
theorem updateMeta_second (fs : Fs) (name path now f : Str)
    (henc : getMetadataFilePath path = some f)
    (hn1 : '\n' ∉ name) (hn2 : '\n' ∉ path) (hn3 : '\n' ∉ now)
    (hq1 : '"' ∉ name) (hq2 : '"' ∉ path) (hq3 : '"' ∉ now)
    (hlook : fsLookup fs f = some (.ok (midContent name path now))) :
    (updateMeta fs path [("description".data, .s "x".data)]).2
      = fsWrite fs f (.ok (midContent name path now)) := by
  have hget : recordGet (midRecord name path now) "description".data
      = some (.s (descAfter name path)) := rfl
  have hmerge : mergeRecord (midRecord name path now) [("description".data, Val.s "x".data)]
      = midRecord name path now := by
    unfold mergeRecord
    simp only [List.foldl_cons, List.foldl_nil]
    rw [hget]
    simp only [mergeVal]
    rw [if_neg (by decide : ¬("x".data = ([] : Str)))]
    have hinc : jsIncludes (descAfter name path) "x".data = true := by
      rw [show "x".data = ['x'] from rfl]
      refine (jsIncludes_single_iff 'x' _).mpr ?_
      unfold descAfter
      exact List.mem_append.mpr (Or.inr (by simp))
    rw [hinc]
    simp only [if_true]
    exact recordSet_self_of_get _ _ _ hget
  unfold updateMeta
  simp only [henc, hlook, split_mid name path now hn1 hn2 hn3, extractFMBody_mid,
    parse_mid name path now hq1 hq2 hq3, hmerge,
    serialize_mid name path now hn1 hn2 hn3 hq1 hq2 hq3]
  simp [midContent]

theorem readMeta_mid (fs : Fs) (name path now f : Str)
    (henc : getMetadataFilePath path = some f)
    (hn1 : '\n' ∉ name) (hn2 : '\n' ∉ path) (hn3 : '\n' ∉ now)
    (hq1 : '"' ∉ name) (hq2 : '"' ∉ path) (hq3 : '"' ∉ now)
    (hlook : fsLookup fs f = some (.ok (midContent name path now))) :
    readMeta fs path = midRecord name path now := by
  unfold readMeta
  simp only [henc, hlook, split_mid name path now hn1 hn2 hn3, extractFMLines_mid]
  exact parse_mid name path now hq1 hq2 hq3

/-- **C5.** The scalar-merge rule of `updateMeta`: when the existing value
for a key is scalar text and the incoming value is scalar text, the merge
appends the incoming text as a new line unless it is already a substring of
the existing text.  The claimed consequence holds in corrected form: on a
freshly created node whose name and path do not already contain the letter
`x`, calling `updateMeta` with `{description: "x"}` twice yields a
description equal to the initial description plus one appended line `x`, in
which `x` occurs exactly once.  (Without that proviso the consequence fails:
see the counterexample, where the fresh description already contains `x`.) -/
theorem C5_scalar_append_unless_substring
    (rec : Record) (k e v : Str)
    (hg : recordGet rec k = some (.s e)) (hv : v ≠ [])
    (name path now f : Str) (fs : Fs)
    (hn1 : '\n' ∉ name) (hn2 : '\n' ∉ path) (hn3 : '\n' ∉ now)
    (hq1 : '"' ∉ name) (hq2 : '"' ∉ path) (hq3 : '"' ∉ now)
    (hx1 : 'x' ∉ name) (hx2 : 'x' ∉ path)
    (henc : getMetadataFilePath path = some f) (hfresh : fsHas fs f = false) :
    recordGet (mergeRecord rec [(k, .s v)]) k
        = some (if jsIncludes e v then Val.s e else Val.s (e ++ '\n' :: v)) ∧
    recordGet (readMeta (updateMeta (updateMeta
          (createNewMeta fs name path now).2 path
          [("description".data, .s "x".data)]).2 path
          [("description".data, .s "x".data)]).2 path)
        "description".data
      = some (.s (descAfter name path)) ∧
    List.count 'x' (descAfter name path) = 1 := by
  refine ⟨?_, ?_, ?_⟩
  · have hval : mergeVal (recordGet rec k) (.s v)
        = if jsIncludes e v then Val.s e else Val.s (e ++ '\n' :: v) := by
      rw [hg]
      simp only [mergeVal]
      rw [if_neg hv]
    unfold mergeRecord
    simp only [List.foldl_cons, List.foldl_nil]
    rw [recordGet_set_self, hval]
  · rw [createNewMeta_fresh fs name path now f henc hfresh,
      updateMeta_first _ name path now f henc hn1 hn2 hn3 hq1 hq2 hq3 hx1 hx2
        (fsLookup_write_self fs f _),
      updateMeta_second _ name path now f henc hn1 hn2 hn3 hq1 hq2 hq3
        (fsLookup_write_self _ f _),
      readMeta_mid _ name path now f henc hn1 hn2 hn3 hq1 hq2 hq3
        (fsLookup_write_self _ f _)]
    rfl
  · exact count_descAfter name path hx1 hx2

/-- Witness: the merge rule at a concrete record, and the corrected
twice-updated description on a node named `a`. -/
theorem C5_scalar_append_unless_substring_witness :
    recordGet (mergeRecord [("k".data, Val.s "ab".data)] [("k".data, .s "b".data)]) "k".data
        = some (if jsIncludes "ab".data "b".data then Val.s "ab".data
            else Val.s ("ab".data ++ '\n' :: "b".data)) ∧
    recordGet (readMeta (updateMeta (updateMeta
          (createNewMeta [] "a".data "a".data "T".data).2 "a".data
          [("description".data, .s "x".data)]).2 "a".data
          [("description".data, .s "x".data)]).2 "a".data)
        "description".data
      = some (.s (descAfter "a".data "a".data)) ∧
    List.count 'x' (descAfter "a".data "a".data) = 1 :=
  C5_scalar_append_unless_substring
    [("k".data, Val.s "ab".data)] "k".data "ab".data "b".data rfl (by decide)
    "a".data "a".data "T".data "a_YQ==.md".data []
    (by decide) (by decide) (by decide) (by decide) (by decide) (by decide)
    (by decide) (by decide) (by decide) rfl
